import Mathlib

/-!
Verification development for the network-scanner device-discovery engine
(`src/network-scanner/scanner.py`).  The Python source is shallowly embedded:
pure helpers become Lean functions over `List Char` / `String`, the effectful
environment (subprocess invocations, reverse DNS, clock, platform detection)
becomes an explicit `Env` record, and the single spot where a Python exception
can escape (`is_tool_available`, which catches only `CalledProcessError`) is
modelled with `Except Unit`.  Regex matching in the source is embedded by
hand-rolled deterministic parsers; each such definition carries a comment
arguing why the backtracking regex is equivalent to the deterministic parse.

Character-level modelling note: Python string predicates (`int(...)`,
`str.strip`, `str.lower`, `\s`, `\d`) are modelled at ASCII precision; the
Unicode extensions of those Python functions are outside the model.
-/

/-- ASCII decimal digit test, models the regex class `\d` and the digits
accepted by Python `int()` (ASCII fragment). -/
def isDigitCh (c : Char) : Bool := '0' ≤ c && c ≤ '9'

/-- Hexadecimal digit, models the regex class `[0-9a-fA-F]`. -/
def hexCh (c : Char) : Bool :=
  isDigitCh c || ('a' ≤ c && c ≤ 'f') || ('A' ≤ c && c ≤ 'F')

/-- Characters of the regex class `[0-9a-fA-F:]` used for MAC captures. -/
def hexColonCh (c : Char) : Bool := hexCh c || c == ':'

/-- ASCII whitespace, models Python's `str.strip`/`\s` class
(space, tab, newline, carriage return, vertical tab, form feed). -/
def pyWs (c : Char) : Bool :=
  c == ' ' || c == '\t' || c == '\n' || c == '\r' || c == '\x0b' || c == '\x0c'

/-- ASCII lowercase conversion, models Python `str.lower` on ASCII. -/
def pyLower (c : Char) : Char :=
  if 'A' ≤ c && c ≤ 'Z' then Char.ofNat (c.toNat + 32) else c

/-- ASCII uppercase conversion, models Python `str.upper` on ASCII
(used for the `'LOOPBACK' not in line.upper()` test). -/
def pyUpper (c : Char) : Char :=
  if 'a' ≤ c && c ≤ 'z' then Char.ofNat (c.toNat - 32) else c

/-- Numeric value of an ASCII digit. -/
def digVal (c : Char) : Nat := c.toNat - '0'.toNat

/-- Python `str.strip()` (both ends, whitespace) on a character list. -/
def pyStrip (l : List Char) : List Char :=
  ((l.dropWhile pyWs).reverse.dropWhile pyWs).reverse

/-- `str.split(sep)` for a single-character separator, Python semantics:
the empty string yields `[[]]`, adjacent separators yield empty fields. -/
def splitChar (sep : Char) : List Char → List (List Char)
  | [] => [[]]
  | c :: rest =>
    if c = sep then [] :: splitChar sep rest
    else
      match splitChar sep rest with
      | g :: gs => (c :: g) :: gs
      | [] => [[c]]

mutual

/-- Digit-run parser for Python `int()`: grammar `digit (digit | '_' digit)*`
(a single underscore is allowed between digits, Python 3.6+), accumulating
the decimal value.  Returns `none` when the remaining input deviates. -/
def pyDigitsGo (acc : Nat) : List Char → Option Nat
  | [] => some acc
  | c :: rest =>
    if isDigitCh c then pyDigitsGo (10 * acc + digVal c) rest
    else if c = '_' then pyDigitsUnd acc rest
    else none

/-- After an underscore: exactly one digit must follow, then continue. -/
def pyDigitsUnd (acc : Nat) : List Char → Option Nat
  | [] => none
  | d :: rest =>
    if isDigitCh d then pyDigitsGo (10 * acc + digVal d) rest else none

end

/-- Entry point of the digit-run parser: at least one digit required. -/
def pyDigits : List Char → Option Nat
  | [] => none
  | c :: rest => if isDigitCh c then pyDigitsGo (digVal c) rest else none

/-- Model of Python `int(s)` (ASCII fragment): surrounding whitespace is
stripped, one optional leading sign, then digits with optional single
underscores between them; `none` models a raised `ValueError`. -/
def pyInt (l : List Char) : Option Int :=
  match pyStrip l with
  | [] => none
  | c :: rest =>
    if c = '+' then (pyDigits rest).map Int.ofNat
    else if c = '-' then (pyDigits rest).map (fun n => -(Int.ofNat n))
    else (pyDigits (c :: rest)).map Int.ofNat

/-- `is_valid_ip` (scanner.py:333-342): split on `'.'`, require exactly 4
fields, each accepted by Python `int()` with value in `[0, 255]`; a
`ValueError`/`AttributeError` is caught and yields `False`. -/
def is_valid_ip (s : String) : Bool :=
  let parts := splitChar '.' s.data
  parts.length = 4 && parts.all fun p =>
    match pyInt p with
    | some n => decide (0 ≤ n ∧ n ≤ 255)
    | none => false

/-- `is_valid_mac`'s regex `^([0-9a-fA-F]{1,2}[:-]){5}([0-9a-fA-F]{1,2})$`
(scanner.py:344-348), as a deterministic parser.  `n` counts the separators
still expected.  Determinism argument: hex digits and the separator class
`[:-]` are disjoint, so each `[0-9a-fA-F]{1,2}` group is forced to be the
maximal hex run at its position (a run of length 0 or ≥ 3 admits no
backtracking split), and Python's `$` accepts end-of-string or a single
trailing newline. -/
def macGroups (n : Nat) (l : List Char) : Bool :=
  let run := l.takeWhile hexCh
  let rest := l.dropWhile hexCh
  (run.length = 1 || run.length = 2) &&
    match n with
    | 0 =>
      match rest with
      | [] => true
      | [c] => c == '\n'
      | _ => false
    | k + 1 =>
      match rest with
      | c :: rest2 => (c == ':' || c == '-') && macGroups k rest2
      | [] => false

/-- `is_valid_mac` (scanner.py:344-348): `re.match` of the anchored pattern. -/
def is_valid_mac (s : String) : Bool := macGroups 5 s.data

/-- The hex cleanup inside `normalize_mac` (scanner.py:353):
`re.sub(r'[^0-9a-fA-F]', '', mac.lower())` as a character list. -/
def hexFilterLower (s : String) : List Char :=
  (s.data.map pyLower).filter hexCh

/-- The chunking `[clean_mac[i:i+2] for i in range(0, len(clean_mac), 2)]`
(scanner.py:356): pairs of characters, a trailing singleton if odd. -/
def chunk2 : List Char → List (List Char)
  | [] => []
  | [a] => [[a]]
  | a :: b :: rest => [a, b] :: chunk2 rest

/-- `':'.join(chunks)` on character lists. -/
def joinColon : List (List Char) → List Char
  | [] => []
  | [g] => g
  | g :: gs => g ++ ':' :: joinColon gs

/-- `normalize_mac` (scanner.py:350-357): strip non-hex from the lowercased
input, regroup into 2-character chunks, join the first six with `':'`.
The function is total; it signals no error on short inputs. -/
def normalize_mac (s : String) : String :=
  ⟨joinColon ((chunk2 (hexFilterLower s)).take 6)⟩

/-- Does a list start with the given pattern (helper for substring tests). -/
def startsWithL : List Char → List Char → Bool
  | [], _ => true
  | _ :: _, [] => false
  | p :: ps, c :: cs => p == c && startsWithL ps cs

/-- Python's substring test `pat in s`. -/
def containsSub (pat : List Char) : List Char → Bool
  | [] => pat.isEmpty
  | l@(_ :: rest) => startsWithL pat l || containsSub pat rest

/-- Outcome of `subprocess.run` without a timeout argument:
either a completed process (exit code and captured stdout) or a raised
exception (`FileNotFoundError`, `OSError`, ...) while spawning. -/
inductive RunRes where
  | ok (code : Int) (stdout : String)
  | exn
deriving DecidableEq

/-- Outcome of `subprocess.run(..., timeout=1)` used by the ping sweep:
completion, spawn exception, or `TimeoutExpired`. -/
inductive PingRes where
  | ok (code : Int) (stdout : String)
  | exn
  | timeout
deriving DecidableEq

/-- The external world consulted by one scan cycle: platform identification,
effective uid, the outputs of invoked tools, reverse DNS, the clock
(indexed by how many device records the running strategy has built so far,
one `datetime.now()` call per appended record), and the debug flag
(`CONFIG['debugging']`, which only affects logging). -/
structure Env where
  platformSystem : String
  euid : Nat
  run : List String → RunRes
  runPing : List String → PingRes
  getfqdn : String → Option String
  clock : Nat → String
  debugging : Bool

/-- A device record as built by the scanner (`ip`, `mac`, `hostname`,
`last_seen` dictionary entries). -/
structure Device where
  ip : String
  mac : String
  hostname : String
  lastSeen : String
deriving DecidableEq

/-- `get_os_type` (scanner.py:37-47): substring tests on the lowercased
`platform.system()`. -/
def get_os_type (e : Env) : String :=
  let sys := e.platformSystem.data.map pyLower
  if containsSub "darwin".data sys then "macos"
  else if containsSub "linux".data sys then "linux"
  else if containsSub "windows".data sys then "windows"
  else "unknown"

/-- `is_root` (scanner.py:49-51): `os.geteuid() == 0` unless
`platform.system().lower() == 'windows'` (string equality there, unlike the
substring test in `get_os_type`). -/
def is_root (e : Env) : Bool :=
  if e.platformSystem.data.map pyLower = "windows".data then true
  else e.euid = 0

/-- `is_tool_available` (scanner.py:29-35): runs `which name` with
`check=True`; a nonzero exit raises `CalledProcessError` which is caught
(→ `false`), but a spawn failure raises an exception the function does not
catch — modelled as `Except.error`. -/
def is_tool_available (e : Env) (name : String) : Except Unit Bool :=
  match e.run ["which", name] with
  | .ok code _ => if code = 0 then .ok true else .ok false
  | .exn => .error ()

/-- The inline reverse-DNS idiom (scanner.py:234-238 and twins):
`socket.getfqdn(ip)` with any exception → `"Unknown"`, and a result equal to
the queried IP also → `"Unknown"`. -/
def resolveHost (e : Env) (ip : String) : String :=
  match e.getfqdn ip with
  | none => "Unknown"
  | some h => if h = ip then "Unknown" else h

/-- Python truthiness of an optional string (`if not interface:` treats both
`None` and `""` as false). -/
def optTruthy : Option String → Bool
  | none => false
  | some s => !s.isEmpty

/-- The second `':'`-field of a line, stripped: `line.split(':')[1].strip()`
(scanner.py:63,69); total, `[]` when there is no second field. -/
def secondField (sep : Char) (l : List Char) : List Char :=
  match splitChar sep l with
  | _ :: second :: _ => pyStrip second
  | _ => []

/-- One dotted-quad octet for the regex fragment `\d+`: the maximal digit
run (forced, since the following regex token is `.` or whitespace, never a
digit). -/
def ipOct (l : List Char) : Option (List Char × List Char) :=
  let d := l.takeWhile isDigitCh
  if d.isEmpty then none else some (d, l.dropWhile isDigitCh)

/-- The regex fragment `(\d+\.\d+\.\d+\.\d+)`: four maximal digit runs
joined by literal dots; returns the matched characters and the rest. -/
def parseIPQuad (l : List Char) : Option (List Char × List Char) := do
  let (d1, r1) ← ipOct l
  match r1 with
  | '.' :: r1' => do
    let (d2, r2) ← ipOct r1'
    match r2 with
    | '.' :: r2' => do
      let (d3, r3) ← ipOct r2'
      match r3 with
      | '.' :: r3' => do
        let (d4, r4) ← ipOct r3'
        pure (d1 ++ '.' :: d2 ++ '.' :: d3 ++ '.' :: d4, r4)
      | _ => none
    | _ => none
  | _ => none

/-- `re.search(r'dev\s+(\S+)', ...)` attempted at one position
(scanner.py:74).  `\s+` is forced maximal (shortening it leaves a whitespace
character where `\S` must match) and the capture `(\S+)` is the maximal
non-whitespace run (greedy, end of pattern). -/
def devTryAt : List Char → Option (List Char)
  | 'd' :: 'e' :: 'v' :: t =>
    let w := t.takeWhile pyWs
    if w.isEmpty then none
    else
      let tok := (t.dropWhile pyWs).takeWhile (fun c => !(pyWs c))
      if tok.isEmpty then none else some tok
  | _ => none

/-- Leftmost-position search for `dev\s+(\S+)`. -/
def devSearch : List Char → Option (List Char)
  | [] => none
  | l@(_ :: rest) =>
    match devTryAt l with
    | some tok => some tok
    | none => devSearch rest

/-- Index of the last `':'` in a list, if any. -/
def lastColonIdx : List Char → Option Nat
  | [] => none
  | c :: rest =>
    match lastColonIdx rest with
    | some k => some (k + 1)
    | none => if c = ':' then some 0 else none

/-- `re.search(r'^\d+:\s+(\S+):', line)` (scanner.py:83): anchored; after
the digits, the colon and the forced-maximal `\s+`, the greedy `(\S+)` must
be followed by a literal `':'`, so the capture is the maximal non-whitespace
run truncated at its last inner colon (which must exist at index ≥ 1). -/
def ipLinkMatch (l : List Char) : Option (List Char) :=
  let d := l.takeWhile isDigitCh
  if d.isEmpty then none
  else
    match l.dropWhile isDigitCh with
    | ':' :: t =>
      let w := t.takeWhile pyWs
      if w.isEmpty then none
      else
        let R := (t.dropWhile pyWs).takeWhile (fun c => !(pyWs c))
        match lastColonIdx R with
        | some k => if k = 0 then none else some (R.take k)
        | none => none
    | _ => none

/-- The fallback loop of `get_default_interface` on Linux
(scanner.py:79-85): even-indexed lines not containing `LOOPBACK`
(case-insensitively) are matched against `^\d+:\s+(\S+):`; the first match
is returned. -/
def ipLinkScan : List (List Char) → Nat → Option String
  | [], _ => none
  | line :: rest, i =>
    if i % 2 = 0 && !(containsSub "LOOPBACK".data (line.map pyUpper)) then
      match ipLinkMatch line with
      | some tok => some ⟨tok⟩
      | none => ipLinkScan rest (i + 1)
    else ipLinkScan rest (i + 1)

/-- `get_default_interface` (scanner.py:53-89).  Any spawn exception inside
the `try` aborts to the trailing `return None`.  On macOS the first line
containing `interface:` (then, in the fallback output, `Device:`) yields
`line.split(':')[1].strip()`; on Linux the `ip route get 8.8.8.8` output is
searched for `dev\s+(\S+)`, with the `ip link show up` loop as fallback.
Exit codes are never inspected here. -/
def get_default_interface (e : Env) : Option String :=
  if get_os_type e = "macos" then
    match e.run ["route", "get", "default"] with
    | .exn => none
    | .ok _ out =>
      match (splitChar '\n' out.data).find? (containsSub "interface:".data) with
      | some line => some ⟨secondField ':' line⟩
      | none =>
        match e.run ["networksetup", "-listallhardwareports"] with
        | .exn => none
        | .ok _ out2 =>
          match (splitChar '\n' out2.data).find? (containsSub "Device:".data) with
          | some line => some ⟨secondField ':' line⟩
          | none => none
  else if get_os_type e = "linux" then
    match e.run ["ip", "route", "get", "8.8.8.8"] with
    | .exn => none
    | .ok _ out =>
      match devSearch out.data with
      | some tok => some ⟨tok⟩
      | none =>
        match e.run ["ip", "link", "show", "up"] with
        | .exn => none
        | .ok _ out2 => ipLinkScan (splitChar '\n' out2.data) 0
  else none

/-- `re.search(r'inet\s+(\d+\.\d+\.\d+\.\d+)', ...)` attempted at one
position (scanner.py:100); `\s+` forced maximal, quad forced as in
`parseIPQuad`. -/
def inetTryAt : List Char → Option (List Char)
  | 'i' :: 'n' :: 'e' :: 't' :: t =>
    let w := t.takeWhile pyWs
    if w.isEmpty then none
    else (parseIPQuad (t.dropWhile pyWs)).map Prod.fst
  | _ => none

/-- Leftmost-position search for `inet\s+(\d+\.\d+\.\d+\.\d+)`. -/
def inetSearch : List Char → Option (List Char)
  | [] => none
  | l@(_ :: rest) =>
    match inetTryAt l with
    | some r => some r
    | none => inetSearch rest

/-- `get_interface_ip` (scanner.py:91-106): macOS returns the stripped
stdout of `ipconfig getifaddr` (possibly empty, exit code ignored); Linux
searches `ip -4 addr show` for the first `inet` quad; other platforms and
spawn exceptions give `None`. -/
def get_interface_ip (e : Env) (iface : String) : Option String :=
  if get_os_type e = "macos" then
    match e.run ["ipconfig", "getifaddr", iface] with
    | .exn => none
    | .ok _ out => some ⟨pyStrip out.data⟩
  else if get_os_type e = "linux" then
    match e.run ["ip", "-4", "addr", "show", iface] with
    | .exn => none
    | .ok _ out =>
      match inetSearch out.data with
      | some ip => some ⟨ip⟩
      | none => none
  else none

/-- Worker for `wsSplit`: `cur` holds the (reversed) token being read. -/
def wsSplitGo : List Char → List Char → List (List Char)
  | cur, [] => if cur.isEmpty then [] else [cur.reverse]
  | cur, c :: cs =>
    if pyWs c then
      if cur.isEmpty then wsSplitGo [] cs
      else cur.reverse :: wsSplitGo [] cs
    else wsSplitGo (c :: cur) cs

/-- `re.split(r'\s+', s)` for a string with no leading or trailing
whitespace (the source always strips first): the maximal non-whitespace
runs, in order. -/
def wsSplit (l : List Char) : List (List Char) := wsSplitGo [] l

/-- `sep.join(tokens)` on character lists. -/
def joinSep (sep : Char) : List (List Char) → List Char
  | [] => []
  | [t] => t
  | t :: ts => t ++ sep :: joinSep sep ts

/-- The parse loop of `scan_with_arp_scan` (scanner.py:143-169): skip blank
lines, split the stripped line on whitespace runs, first token IP, second
MAC (lines with fewer than 2 tokens are skipped), drop the line unless both
validate, remaining tokens joined by one space (then stripped) form the
hostname, `"Unknown"` when absent.  `k` counts the records appended so far
(one `datetime.now()` per appended record). -/
def arpScanLoop (e : Env) : Nat → List (List Char) → List Device
  | _, [] => []
  | k, line :: rest =>
    if (pyStrip line).isEmpty then arpScanLoop e k rest
    else
      match wsSplit (pyStrip line) with
      | ipTok :: macTok :: hostToks =>
        if is_valid_ip ⟨ipTok⟩ && is_valid_mac ⟨macTok⟩ then
          let joined := if hostToks.isEmpty then [] else joinSep ' ' hostToks
          let hostname : String :=
            if joined.isEmpty then "Unknown" else ⟨pyStrip joined⟩
          ⟨⟨ipTok⟩, ⟨macTok⟩, hostname, e.clock k⟩ :: arpScanLoop e (k + 1) rest
        else arpScanLoop e k rest
      | _ => arpScanLoop e k rest

/-- `scan_with_arp_scan` (scanner.py:108-174): requires root; resolves the
interface when the argument is falsy; any spawn exception → `[]`; exit
codes other than 0 and 1 → `[]`; otherwise the header (first 2 lines) is
skipped and the last 3 lines are dropped only when more than 5 lines are
present, and the remainder is parsed by `arpScanLoop`. -/
def scan_with_arp_scan (e : Env) (interface0 : Option String) : List Device :=
  if !(is_root e) then []
  else
    let ifc := if optTruthy interface0 then interface0 else get_default_interface e
    if !(optTruthy ifc) then []
    else
      match e.run ["arp-scan", "--interface", ifc.getD "", "--localnet"] with
      | .exn => []
      | .ok code out =>
        if code ≠ 0 ∧ code ≠ 1 then []
        else
          let lines := splitChar '\n' out.data
          let endIdx := if lines.length > 5 then lines.length - 3 else lines.length
          arpScanLoop e 0 ((lines.take endIdx).drop 2)

/-- Tail of the macOS `arp -a` pattern after the optional hostname:
`\s*\((\d+\.\d+\.\d+\.\d+)\)\s+at\s+([0-9a-fA-F:]+)` (scanner.py:202).
Every quantifier here is forced: `\s*`/`\s+` are bounded by non-whitespace
literals, the quad digit runs by dots, and the final capture is greedy with
nothing after it. -/
def macArpRest (t : List Char) : Option (List Char × List Char) :=
  match t.dropWhile pyWs with
  | '(' :: t2 =>
    match parseIPQuad t2 with
    | some (ip, t3) =>
      match t3 with
      | ')' :: t4 =>
        let w := t4.takeWhile pyWs
        if w.isEmpty then none
        else
          match t4.dropWhile pyWs with
          | 'a' :: 't' :: t5 =>
            let w2 := t5.takeWhile pyWs
            if w2.isEmpty then none
            else
              let mac := (t5.dropWhile pyWs).takeWhile hexColonCh
              if mac.isEmpty then none else some (ip, mac)
          | _ => none
      | _ => none
    | none => none
  | _ => none

/-- Backtracking of the greedy optional group `(\S+)?`: at one position with
maximal non-whitespace run `R`, try the prefixes of `R` longest first
(hostname captured), then the empty alternative (hostname `None`). -/
def macArpTryPref (s R : List Char) :
    Nat → Option (Option (List Char) × List Char × List Char)
  | 0 => (macArpRest s).map fun p => (none, p.1, p.2)
  | n + 1 =>
    match macArpRest (s.drop (n + 1)) with
    | some (ip, mac) => some (some (R.take (n + 1)), ip, mac)
    | none => macArpTryPref s R n

/-- One-position attempt of the macOS `arp -a` regex
`(\S+)?\s*\((\d+\.\d+\.\d+\.\d+)\)\s+at\s+([0-9a-fA-F:]+)`. -/
def macArpTryAt (s : List Char) :
    Option (Option (List Char) × List Char × List Char) :=
  let R := s.takeWhile (fun c => !(pyWs c))
  macArpTryPref s R R.length

/-- `re.search` of the macOS `arp -a` pattern: leftmost matching position. -/
def macArpSearch : List Char → Option (Option (List Char) × List Char × List Char)
  | [] => none
  | l@(_ :: rest) =>
    match macArpTryAt l with
    | some r => some r
    | none => macArpSearch rest

/-- One-position attempt of the Linux `arp -n` pattern
`(\d+\.\d+\.\d+\.\d+)\s+\S+\s+([0-9a-fA-F:]+)` (scanner.py:222).  The
middle `\S+` is forced maximal: shortening it puts a non-whitespace
character where `\s+` must start. -/
def linuxArpTryAt (l : List Char) : Option (List Char × List Char) :=
  match parseIPQuad l with
  | some (ip, r) =>
    let w := r.takeWhile pyWs
    if w.isEmpty then none
    else
      let r2 := r.dropWhile pyWs
      let R2 := r2.takeWhile (fun c => !(pyWs c))
      if R2.isEmpty then none
      else
        let r3 := r2.dropWhile (fun c => !(pyWs c))
        let w2 := r3.takeWhile pyWs
        if w2.isEmpty then none
        else
          let mac := (r3.dropWhile pyWs).takeWhile hexColonCh
          if mac.isEmpty then none else some (ip, mac)
  | none => none

/-- `re.search` of the Linux `arp -n` pattern. -/
def linuxArpSearch : List Char → Option (List Char × List Char)
  | [] => none
  | l@(_ :: rest) =>
    match linuxArpTryAt l with
    | some r => some r
    | none => linuxArpSearch rest

/-- `\s+lladdr\s+([0-9a-fA-F:]+)` attempted at one position
(scanner.py:275). -/
def neighTail (t : List Char) : Option (List Char) :=
  let w := t.takeWhile pyWs
  if w.isEmpty then none
  else
    match t.dropWhile pyWs with
    | 'l' :: 'l' :: 'a' :: 'd' :: 'd' :: 'r' :: t2 =>
      let w2 := t2.takeWhile pyWs
      if w2.isEmpty then none
      else
        let mac := (t2.dropWhile pyWs).takeWhile hexColonCh
        if mac.isEmpty then none else some mac
    | _ => none

/-- The lazy `.*?` of the `ip neigh` pattern: smallest expansion first, i.e.
try `\s+lladdr\s+...` at each successive suffix. -/
def neighFind : List Char → Option (List Char)
  | [] => none
  | t@(_ :: rest) =>
    match neighTail t with
    | some mac => some mac
    | none => neighFind rest

/-- One-position attempt of
`(\d+\.\d+\.\d+\.\d+).*?\s+lladdr\s+([0-9a-fA-F:]+)`. -/
def neighTryAt (l : List Char) : Option (List Char × List Char) :=
  match parseIPQuad l with
  | some (ip, r) => (neighFind r).map fun mac => (ip, mac)
  | none => none

/-- `re.search` of the `ip neigh` pattern: leftmost position. -/
def neighSearch : List Char → Option (List Char × List Char)
  | [] => none
  | l@(_ :: rest) =>
    match neighTryAt l with
    | some r => some r
    | none => neighSearch rest

/-- `re.search(r'at\s+([0-9a-fA-F:]+)', ...)` (scanner.py:395), one
position. -/
def atTryAt : List Char → Option (List Char)
  | 'a' :: 't' :: t =>
    let w := t.takeWhile pyWs
    if w.isEmpty then none
    else
      let mac := (t.dropWhile pyWs).takeWhile hexColonCh
      if mac.isEmpty then none else some mac
  | _ => none

/-- Leftmost search for `at\s+([0-9a-fA-F:]+)`. -/
def atSearch : List Char → Option (List Char)
  | [] => none
  | l@(_ :: rest) =>
    match atTryAt l with
    | some r => some r
    | none => atSearch rest

/-- `re.search(r'([0-9a-fA-F:]+)[^\n]+', ...)` (scanner.py:397), one
position: the greedy capture is the maximal class run if a non-newline
character follows it; otherwise (run followed by `\n` or end) the capture
backtracks by one character, which then satisfies `[^\n]+`. -/
def hexColonCapTryAt (l : List Char) : Option (List Char) :=
  let R := l.takeWhile hexColonCh
  if R.isEmpty then none
  else
    match l.dropWhile hexColonCh with
    | c :: _ =>
      if c ≠ '\n' then some R
      else if R.length ≥ 2 then some R.dropLast else none
    | [] => if R.length ≥ 2 then some R.dropLast else none

/-- Leftmost search for `([0-9a-fA-F:]+)[^\n]+`. -/
def hexColonCapSearch : List Char → Option (List Char)
  | [] => none
  | l@(_ :: rest) =>
    match hexColonCapTryAt l with
    | some r => some r
    | none => hexColonCapSearch rest

/-- macOS branch of the `scan_with_arp_command` loop (scanner.py:200-219):
regex hit, hostname `group(1) or 'Unknown'`, both addresses validated. -/
def macArpLoop (e : Env) : Nat → List (List Char) → List Device
  | _, [] => []
  | k, line :: rest =>
    match macArpSearch line with
    | some (hOpt, ip, mac) =>
      if is_valid_ip ⟨ip⟩ && is_valid_mac ⟨mac⟩ then
        let hostname : String := match hOpt with
          | none => "Unknown"
          | some h => ⟨h⟩
        ⟨⟨ip⟩, ⟨mac⟩, hostname, e.clock k⟩ :: macArpLoop e (k + 1) rest
      else macArpLoop e k rest
    | none => macArpLoop e k rest

/-- Linux branch of the `scan_with_arp_command` loop (scanner.py:220-245):
regex hit, both addresses validated, best-effort reverse DNS hostname. -/
def linuxArpLoop (e : Env) : Nat → List (List Char) → List Device
  | _, [] => []
  | k, line :: rest =>
    match linuxArpSearch line with
    | some (ip, mac) =>
      if is_valid_ip ⟨ip⟩ && is_valid_mac ⟨mac⟩ then
        ⟨⟨ip⟩, ⟨mac⟩, resolveHost e ⟨ip⟩, e.clock k⟩ :: linuxArpLoop e (k + 1) rest
      else linuxArpLoop e k rest
    | none => linuxArpLoop e k rest

/-- `scan_with_arp_command` (scanner.py:176-250): `arp -a` on macOS,
`arp -n` otherwise; spawn exception or nonzero exit → `[]`. -/
def scan_with_arp_command (e : Env) : List Device :=
  let cmd := if get_os_type e = "macos" then ["arp", "-a"] else ["arp", "-n"]
  match e.run cmd with
  | .exn => []
  | .ok code out =>
    if code ≠ 0 then []
    else if get_os_type e = "macos" then macArpLoop e 0 (splitChar '\n' out.data)
    else linuxArpLoop e 0 (splitChar '\n' out.data)

/-- The `scan_with_ip_neigh` loop (scanner.py:276-298): regex hit AND the
raw line contains `REACHABLE`, both addresses validated, reverse DNS. -/
def neighLoop (e : Env) : Nat → List (List Char) → List Device
  | _, [] => []
  | k, line :: rest =>
    match neighSearch line with
    | some (ip, mac) =>
      if containsSub "REACHABLE".data line then
        if is_valid_ip ⟨ip⟩ && is_valid_mac ⟨mac⟩ then
          ⟨⟨ip⟩, ⟨mac⟩, resolveHost e ⟨ip⟩, e.clock k⟩ :: neighLoop e (k + 1) rest
        else neighLoop e k rest
      else neighLoop e k rest
    | none => neighLoop e k rest

/-- `scan_with_ip_neigh` (scanner.py:252-303): Linux only; spawn exception
or nonzero exit → `[]`. -/
def scan_with_ip_neigh (e : Env) : List Device :=
  if get_os_type e ≠ "linux" then []
  else
    match e.run ["ip", "neigh", "show"] with
    | .exn => []
    | .ok code out =>
      if code ≠ 0 then [] else neighLoop e 0 (splitChar '\n' out.data)

/-- The host suffixes probed by the ping sweep: `range(1, 255)`. -/
def pingHosts : List Nat := (List.range 254).map (· + 1)

/-- The platform ping command (scanner.py:315-318). -/
def pingCmd (e : Env) (ip : String) : List String :=
  if get_os_type e = "windows" then ["ping", "-n", "1", "-w", "200", ip]
  else ["ping", "-c", "1", "-W", "1", ip]

/-- `ping_sweep` (scanner.py:305-331): one bounded probe per suffix; an
address is active iff the probe completes with exit code 0; timeouts and
exceptions are skipped. -/
def ping_sweep (e : Env) (net : String) : List String :=
  pingHosts.filterMap fun host =>
    let ip := net ++ "." ++ toString host
    match e.runPing (pingCmd e ip) with
    | .ok code _ => if code = 0 then some ip else none
    | .timeout => none
    | .exn => none

/-- The per-active-IP ARP-cache lookup of the ping fallback
(scanner.py:384-416): `arp -n ip` on macOS / `arp -a ip` otherwise, exit
code ignored, platform regex extracts the MAC (unvalidated here), reverse
DNS for the hostname; a spawn exception skips that IP. -/
def arpLookupLoop (e : Env) : Nat → List String → List Device
  | _, [] => []
  | k, ip :: rest =>
    let cmd := if get_os_type e = "macos" then ["arp", "-n", ip] else ["arp", "-a", ip]
    match e.run cmd with
    | .exn => arpLookupLoop e k rest
    | .ok _ out =>
      let macOpt := if get_os_type e = "macos" then atSearch out.data
                    else hexColonCapSearch out.data
      match macOpt with
      | some mac =>
        ⟨ip, ⟨mac⟩, resolveHost e ip, e.clock k⟩ :: arpLookupLoop e (k + 1) rest
      | none => arpLookupLoop e k rest

/-- The ping-sweep fallback block of `scan_network` (scanner.py:376-416):
needs a truthy interface and interface IP; `/24` net is the first three
dot-fields of that IP. -/
def pingBlock (e : Env) : List Device :=
  let ifc := get_default_interface e
  if !(optTruthy ifc) then []
  else
    let ipOpt := get_interface_ip e (ifc.getD "")
    if !(optTruthy ipOpt) then []
    else
      let net : String := ⟨joinSep '.' ((splitChar '.' (ipOpt.getD "").data).take 3)⟩
      arpLookupLoop e 0 (ping_sweep e net)

/-- The validation gate of the normalization pass (scanner.py:425). -/
def validR (d : Device) : Bool := is_valid_ip d.ip && is_valid_mac d.mac

/-- The normalization/dedup loop (scanner.py:418-443) with its `seen_macs`
set: drop invalid records, normalize the MAC, drop records whose normalized
MAC was already seen, otherwise record it and keep the updated device. -/
def normAux (seen : List String) : List Device → List Device
  | [] => []
  | d :: rest =>
    if !(validR d) then normAux seen rest
    else
      let nm := normalize_mac d.mac
      if seen.contains nm then normAux seen rest
      else { d with mac := nm } :: normAux (nm :: seen) rest

/-- The full normalization pass of `scan_network` (scanner.py:418-445). -/
def normalizePass (devices : List Device) : List Device := normAux [] devices

/-- The four discovery strategies, in the orchestrator's order. -/
inductive Strat where
  | arpScan
  | arpCmd
  | ipNeigh
  | pingSweep
deriving DecidableEq

/-- `scan_network` (scanner.py:359-445).  The `Except` layer carries the
single uncaught exception path: a spawn failure inside `is_tool_available`.
Python's short-circuiting is preserved: `which arp` runs only when the
previous result list is empty, `which ip` only on Linux with an empty list. -/
def scan_network (e : Env) : Except Unit (List Device) := do
  let t1 ← is_tool_available e "arp-scan"
  let d1 := if t1 && is_root e then scan_with_arp_scan e none else []
  let d2 ←
    if d1.isEmpty then do
      let t2 ← is_tool_available e "arp"
      pure (if t2 then scan_with_arp_command e else d1)
    else pure d1
  let d3 ←
    if d2.isEmpty ∧ get_os_type e = "linux" then do
      let t3 ← is_tool_available e "ip"
      pure (if t3 then scan_with_ip_neigh e else d2)
    else pure d2
  let d4 := if d3.isEmpty then pingBlock e else d3
  pure (normalizePass d4)

/-- The raw list held by the `devices` variable after a strategy trace: the
result of the last invoked strategy (`[]` when none ran). -/
def lastResult (tr : List (Strat × List Device)) : List Device :=
  match tr.getLast? with
  | some p => p.2
  | none => []

/-- Instrumented `scan_network`: identical control flow, but recording, in
invocation order, each strategy that actually ran together with the raw
list it returned.  `scanNetworkEqTrace` below proves it consistent with
`scan_network`. -/
def scanTrace (e : Env) : Except Unit (List (Strat × List Device)) := do
  let t1 ← is_tool_available e "arp-scan"
  let tr1 := if t1 && is_root e then [(Strat.arpScan, scan_with_arp_scan e none)] else []
  let tr2 ←
    if (lastResult tr1).isEmpty then do
      let t2 ← is_tool_available e "arp"
      pure (if t2 then tr1 ++ [(Strat.arpCmd, scan_with_arp_command e)] else tr1)
    else pure tr1
  let tr3 ←
    if (lastResult tr2).isEmpty ∧ get_os_type e = "linux" then do
      let t3 ← is_tool_available e "ip"
      pure (if t3 then tr2 ++ [(Strat.ipNeigh, scan_with_ip_neigh e)] else tr2)
    else pure tr2
  pure (if (lastResult tr3).isEmpty then tr3 ++ [(Strat.pingSweep, pingBlock e)] else tr3)

/-- Decidable equality on `Except`, for concrete evaluations of
`scan_network`. -/
instance {ε α : Type} [DecidableEq ε] [DecidableEq α] : DecidableEq (Except ε α) :=
  fun x y =>
    match x, y with
    | .ok a, .ok b =>
      if h : a = b then isTrue (by rw [h]) else isFalse (by simp [h])
    | .error a, .error b =>
      if h : a = b then isTrue (by rw [h]) else isFalse (by simp [h])
    | .ok _, .error _ => isFalse (by simp)
    | .error _, .ok _ => isFalse (by simp)

/-! ## Claim-side definitions

The following definitions are written from the words of the specification /
claims (not from the source), to be compared against the embedded source
functions above. -/

/-- Decimal value of a digit string (claim-side helper). -/
def decVal (l : List Char) : Nat := l.foldl (fun a c => 10 * a + digVal c) 0

/-- C4's literal reading of `isValidIPv4`: exactly 4 dot-fields, each a
nonempty all-digit token (no whitespace, signs, or other extraneous
characters) with value in `[0, 255]`. -/
def specStrictIPv4 (s : String) : Bool :=
  let parts := splitChar '.' s.data
  parts.length = 4 && parts.all fun p =>
    !p.isEmpty && p.all isDigitCh && decide (decVal p ≤ 255)

/-- Six groups of 1–2 hex digits separated by one fixed separator, end of
string strict (claim-side helper for C5). -/
def macUniformGroups (sep : Char) : Nat → List Char → Bool
  | n, l =>
    let run := l.takeWhile hexCh
    let rest := l.dropWhile hexCh
    (run.length = 1 || run.length = 2) &&
      match n with
      | 0 => rest.isEmpty
      | k + 1 =>
        match rest with
        | c :: rest2 => c == sep && macUniformGroups sep k rest2
        | [] => false

/-- C5's literal reading of `isValidMAC`: six 1–2 hex-digit groups with one
uniform separator, `':'` throughout or `'-'` throughout. -/
def specUniformMAC (s : String) : Bool :=
  macUniformGroups ':' 5 s.data || macUniformGroups '-' 5 s.data

/-- C3's literal reading of `normalizeMAC` (spec §4.1): strip non-hex from
the lowercased input, fail (`none`, the `InvalidFormat` signal) when fewer
than 12 hex digits remain, otherwise truncate to the first 12 digits and
regroup as six colon-joined pairs. -/
def normalizeMacSpec (s : String) : Option String :=
  let d := (s.data.map pyLower).filter hexCh
  if d.length < 12 then none
  else some ⟨joinColon (chunk2 (d.take 12))⟩

/-- Lowercase hex digit (canonical MAC alphabet). -/
def lowerHexCh (c : Char) : Bool := isDigitCh c || ('a' ≤ c && c ≤ 'f')

/-- C6's canonical MAC shape from the spec data model: exactly six
colon-joined groups of exactly two lowercase hex digits
(`aa:bb:cc:dd:ee:ff`). -/
def canonicalMac (s : String) : Bool :=
  let gs := splitChar ':' s.data
  gs.length = 6 && gs.all fun g => g.length = 2 && g.all lowerHexCh

/-- The MAC shape `scan_network` actually guarantees: three to six
colon-joined lowercase-hex groups, every group two digits except possibly
the last (one or two).  This is the image of `normalize_mac` on MACs
accepted by `is_valid_mac`. -/
def macLoose (s : String) : Bool :=
  let gs := splitChar ':' s.data
  decide (3 ≤ gs.length) && decide (gs.length ≤ 6) &&
    (gs.dropLast.all fun g => g.length = 2 && g.all lowerHexCh) &&
    (match gs.getLast? with
     | some g => (g.length = 1 || g.length = 2) && g.all lowerHexCh
     | none => false)

/-- C2's claim-side dedup: keep each record and delete every later record
whose normalized MAC agrees with it (first-seen-wins, stated as a filter
rather than as the source's running `seen` set). -/
def dedupFirst : List Device → List Device
  | [] => []
  | d :: rest =>
    d :: dedupFirst (rest.filter fun d' => normalize_mac d'.mac != normalize_mac d.mac)
termination_by l => l.length
decreasing_by
  simp only [List.length_cons]
  exact Nat.lt_succ_of_le (List.length_filter_le _ _)

/-- The record update applied to survivors of the normalization pass. -/
def normRec (d : Device) : Device := { d with mac := normalize_mac d.mac }

/-- C8's claim-side per-line parse: skip blank lines, split the stripped
line on whitespace, first token IP, second MAC, rest joined as hostname
(`"Unknown"` if absent), `none` unless both addresses validate. -/
def claimLineParse (line : List Char) : Option (String × String × String) :=
  if (pyStrip line).isEmpty then none
  else
    match wsSplit (pyStrip line) with
    | ipTok :: macTok :: rest =>
      if is_valid_ip ⟨ipTok⟩ && is_valid_mac ⟨macTok⟩ then
        some (⟨ipTok⟩, ⟨macTok⟩,
          if rest.isEmpty then "Unknown" else ⟨joinSep ' ' rest⟩)
      else none
    | _ => none

/-- C8's claim-side whole-output parse: skip the first 2 lines, strip the
last 3 only when more than 5 lines are present, then parse each line. -/
def claimArpParse (out : String) : List (String × String × String) :=
  let lines := splitChar '\n' out.data
  let body :=
    if lines.length > 5 then (lines.drop 2).take (lines.length - 5)
    else lines.drop 2
  body.filterMap claimLineParse

/-- Projection of a built device record onto the fields the arp-scan parser
computes from the text (everything but the clock stamp). -/
def devText (d : Device) : String × String × String := (d.ip, d.mac, d.hostname)

/-- Position of a strategy in the orchestrator's fixed order (C1). -/
def stratIdx : Strat → Nat
  | .arpScan => 0
  | .arpCmd => 1
  | .ipNeigh => 2
  | .pingSweep => 3

/-- A hex group of the MAC grammar: nonempty, at most two hex digits. -/
def HexGroup (g : List Char) : Prop :=
  g ≠ [] ∧ g.length ≤ 2 ∧ ∀ c ∈ g, hexCh c = true

/-- Interleave groups and separators: `g1 s1 g2 s2 ... gk`. -/
def macConcat : List (List Char) → List Char → List Char
  | [], _ => []
  | g :: _, [] => g
  | g :: gs, s :: ss => g ++ s :: macConcat gs ss

/-- The shape `is_valid_mac` actually accepts: six 1–2 hex-digit groups,
each adjacent pair separated by `':'` or `'-'` independently (mixed
separators allowed), optionally followed by one trailing newline (the
Python `$`). -/
def MacShapeMixed (l : List Char) : Prop :=
  ∃ gs ss tail, gs.length = 6 ∧ ss.length = 5 ∧
    (∀ g ∈ gs, HexGroup g) ∧ (∀ c ∈ ss, c = ':' ∨ c = '-') ∧
    (tail = [] ∨ tail = ['\n']) ∧ l = macConcat gs ss ++ tail

mutual

/-- Claim-side grammar for the digits of Python `int()` after the first
digit: `(digit | '_' digit)*`. -/
def digitsTailB : List Char → Bool
  | [] => true
  | c :: rest =>
    if isDigitCh c then digitsTailB rest
    else if c = '_' then digitsAfterUnd rest
    else false

/-- Claim-side grammar after an underscore: one digit, then the tail. -/
def digitsAfterUnd : List Char → Bool
  | [] => false
  | d :: rest => isDigitCh d && digitsTailB rest

end

/-- Claim-side digit-string grammar `digit (digit | '_' digit)*`. -/
def digitsCoreB : List Char → Bool
  | [] => false
  | c :: rest => isDigitCh c && digitsTailB rest

/-- What `is_valid_ip` actually accepts per token (Python `int()`
semantics): optional surrounding whitespace, one optional sign, digits with
single underscores between them, signed value `n`. -/
def PyIntToken (t : List Char) (n : Int) : Prop :=
  ∃ w1 sgn ds w2, t = w1 ++ sgn ++ ds ++ w2 ∧
    (∀ c ∈ w1, pyWs c = true) ∧ (∀ c ∈ w2, pyWs c = true) ∧
    (sgn = [] ∨ sgn = ['+'] ∨ sgn = ['-']) ∧
    digitsCoreB ds = true ∧
    n = (if sgn = ['-'] then -(decVal (ds.filter (fun c => c != '_')) : Int)
         else (decVal (ds.filter (fun c => c != '_')) : Int))

/-- C4 amended shape of `is_valid_ip`: four dot-fields, each a Python-int
token with value in `[0, 255]`. -/
def IpShapePy (s : String) : Prop :=
  (splitChar '.' s.data).length = 4 ∧
    ∀ p ∈ splitChar '.' s.data, ∃ n : Int, PyIntToken p n ∧ 0 ≤ n ∧ n ≤ 255

/-- The normalization key of a record. -/
def normKey (d : Device) : String := normalize_mac d.mac

/-- `hexFilterLower` on a raw character list. -/
def listHexLower (l : List Char) : List Char := (l.map pyLower).filter hexCh

/-- C10 helper environments: identical external inputs, different debug
flag. -/
def w10a : Env :=
  { platformSystem := "Linux", euid := 0, run := fun _ => .ok 1 "",
    runPing := fun _ => .exn, getfqdn := fun _ => none,
    clock := fun _ => "t", debugging := true }

/-- Same as `w10a` with the debug flag flipped. -/
def w10b : Env :=
  { platformSystem := "Linux", euid := 0, run := fun _ => .ok 1 "",
    runPing := fun _ => .exn, getfqdn := fun _ => none,
    clock := fun _ => "t", debugging := false }

/-- C9 failing environment: spawning `which` itself raises
(`FileNotFoundError`), as on a host without a `which` binary. -/
def envNoWhich : Env :=
  { platformSystem := "Windows", euid := 0, run := fun _ => .exn,
    runPing := fun _ => .exn, getfqdn := fun _ => none,
    clock := fun _ => "t", debugging := true }

/-- C1 witness environment: no tool available and no resolvable interface;
the cascade falls through to the ping sweep, which returns nothing. -/
def envC1 : Env :=
  { platformSystem := "Darwin", euid := 0, run := fun _ => .ok 1 "",
    runPing := fun _ => .exn, getfqdn := fun _ => none,
    clock := fun _ => "t", debugging := false }

/-- Tool outputs for the C6 counterexample: a short-group MAC accepted by
the validator. -/
def runCex6 (args : List String) : RunRes :=
  if args = ["which", "arp-scan"] then .ok 0 ""
  else if args = ["ip", "route", "get", "8.8.8.8"] then
    .ok 0 "8.8.8.8 via 10.0.0.1 dev eth0 src 10.0.0.5\n"
  else if args = ["arp-scan", "--interface", "eth0", "--localnet"] then
    .ok 0 "Interface: eth0\nStarting arp-scan\n1.2.3.4 a:b:c:d:e:f pi\n"
  else .ok 1 ""

/-- C6 counterexample environment. -/
def envCex6 : Env :=
  { platformSystem := "Linux", euid := 0, run := runCex6,
    runPing := fun _ => .exn, getfqdn := fun _ => none,
    clock := fun _ => "t", debugging := false }

/-- Tool outputs for the C6 witness: a full 12-digit MAC. -/
def runW6 (args : List String) : RunRes :=
  if args = ["which", "arp-scan"] then .ok 0 ""
  else if args = ["ip", "route", "get", "8.8.8.8"] then
    .ok 0 "8.8.8.8 via 10.0.0.1 dev eth0 src 10.0.0.5\n"
  else if args = ["arp-scan", "--interface", "eth0", "--localnet"] then
    .ok 0 "Interface: eth0\nStarting arp-scan\n10.0.0.7 AA:BB:CC:DD:EE:FF tv\n"
  else .ok 1 ""

/-- C6 witness environment. -/
def envW6 : Env :=
  { platformSystem := "Linux", euid := 0, run := runW6,
    runPing := fun _ => .exn, getfqdn := fun _ => none,
    clock := fun _ => "t", debugging := false }

/-- arp-scan output for the C8 witness: 2 header lines, two device lines,
and a 3-line footer kept only because more than 5 lines are present. -/
def outW8 : String :=
  "Interface: eth0\nStarting arp-scan 1.9\n192.168.1.10 aa:bb:cc:dd:ee:ff my device\n192.168.1.11 11:22:33:44:55:66\n\n2 packets received\nEnding arp-scan\n"

/-- Tool outputs for the C8 witness. -/
def runW8 (args : List String) : RunRes :=
  if args = ["arp-scan", "--interface", "eth0", "--localnet"] then .ok 0 outW8
  else .ok 1 ""

/-- C8 witness environment. -/
def envW8 : Env :=
  { platformSystem := "Linux", euid := 0, run := runW8,
    runPing := fun _ => .exn, getfqdn := fun _ => none,
    clock := fun _ => "t", debugging := false }

/-! ## Chunking lemmas for `normalize_mac` -/

/-- Taking `k` chunks of a pair-chunked list is chunking the first `2k`
characters. -/
theorem chunk2_take (k : Nat) : ∀ l : List Char, (chunk2 l).take k = chunk2 (l.take (2 * k)) := by
  induction k with
  | zero => intro l; cases l <;> simp [chunk2]
  | succ k ih =>
    intro l
    match l with
    | [] => simp [chunk2]
    | [a] => simp [chunk2, List.take_succ_cons]
    | a :: b :: rest =>
      have h2 : 2 * (k + 1) = (2 * k) + 1 + 1 := by omega
      rw [h2]
      simp only [chunk2, List.take_succ_cons, ih rest]

section EnvIrrelevance

variable (e1 e2 : Env)

/-- `get_os_type` consults only the platform string. -/
theorem get_os_type_env (h1 : e1.platformSystem = e2.platformSystem) :
    get_os_type e1 = get_os_type e2 := by
  simp only [get_os_type, h1]

/-- `is_root` consults only the platform string and the euid. -/
theorem is_root_env (h1 : e1.platformSystem = e2.platformSystem)
    (h2 : e1.euid = e2.euid) : is_root e1 = is_root e2 := by
  simp only [is_root, h1, h2]

/-- `is_tool_available` consults only the `run` outcomes. -/
theorem is_tool_available_env (h3 : e1.run = e2.run) (name : String) :
    is_tool_available e1 name = is_tool_available e2 name := by
  simp only [is_tool_available, h3]

/-- `resolveHost` consults only reverse DNS. -/
theorem resolveHost_env (h5 : e1.getfqdn = e2.getfqdn) (ip : String) :
    resolveHost e1 ip = resolveHost e2 ip := by
  simp only [resolveHost, h5]

/-- `get_default_interface` consults only the platform string and `run`. -/
theorem get_default_interface_env (h1 : e1.platformSystem = e2.platformSystem)
    (h3 : e1.run = e2.run) :
    get_default_interface e1 = get_default_interface e2 := by
  simp only [get_default_interface, get_os_type_env e1 e2 h1, h3]

/-- `get_interface_ip` consults only the platform string and `run`. -/
theorem get_interface_ip_env (h1 : e1.platformSystem = e2.platformSystem)
    (h3 : e1.run = e2.run) (iface : String) :
    get_interface_ip e1 iface = get_interface_ip e2 iface := by
  simp only [get_interface_ip, get_os_type_env e1 e2 h1, h3]

/-- The arp-scan parse loop consults only the clock. -/
theorem arpScanLoop_env (h6 : e1.clock = e2.clock) :
    ∀ (l : List (List Char)) (k : Nat), arpScanLoop e1 k l = arpScanLoop e2 k l := by
  intro l
  induction l with
  | nil => intro k; rfl
  | cons line rest ih => intro k; simp only [arpScanLoop, h6, ih]

/-- `scan_with_arp_scan` consults platform, euid, `run` and the clock. -/
theorem scan_with_arp_scan_env (h1 : e1.platformSystem = e2.platformSystem)
    (h2 : e1.euid = e2.euid) (h3 : e1.run = e2.run) (h6 : e1.clock = e2.clock)
    (i0 : Option String) :
    scan_with_arp_scan e1 i0 = scan_with_arp_scan e2 i0 := by
  simp only [scan_with_arp_scan, is_root_env e1 e2 h1 h2,
    get_default_interface_env e1 e2 h1 h3, h3, arpScanLoop_env e1 e2 h6]

/-- The macOS arp-cache loop consults only the clock. -/
theorem macArpLoop_env (h6 : e1.clock = e2.clock) :
    ∀ (l : List (List Char)) (k : Nat), macArpLoop e1 k l = macArpLoop e2 k l := by
  intro l
  induction l with
  | nil => intro k; rfl
  | cons line rest ih => intro k; simp only [macArpLoop, h6, ih]

/-- The Linux arp-cache loop consults the clock and reverse DNS. -/
theorem linuxArpLoop_env (h5 : e1.getfqdn = e2.getfqdn) (h6 : e1.clock = e2.clock) :
    ∀ (l : List (List Char)) (k : Nat), linuxArpLoop e1 k l = linuxArpLoop e2 k l := by
  intro l
  induction l with
  | nil => intro k; rfl
  | cons line rest ih =>
    intro k
    simp only [linuxArpLoop, h6, ih, resolveHost_env e1 e2 h5]

/-- `scan_with_arp_command` consults platform, `run`, clock, reverse DNS. -/
theorem scan_with_arp_command_env (h1 : e1.platformSystem = e2.platformSystem)
    (h3 : e1.run = e2.run) (h5 : e1.getfqdn = e2.getfqdn) (h6 : e1.clock = e2.clock) :
    scan_with_arp_command e1 = scan_with_arp_command e2 := by
  simp only [scan_with_arp_command, get_os_type_env e1 e2 h1, h3,
    macArpLoop_env e1 e2 h6, linuxArpLoop_env e1 e2 h5 h6]

/-- The neighbor-table loop consults the clock and reverse DNS. -/
theorem neighLoop_env (h5 : e1.getfqdn = e2.getfqdn) (h6 : e1.clock = e2.clock) :
    ∀ (l : List (List Char)) (k : Nat), neighLoop e1 k l = neighLoop e2 k l := by
  intro l
  induction l with
  | nil => intro k; rfl
  | cons line rest ih =>
    intro k
    simp only [neighLoop, h6, ih, resolveHost_env e1 e2 h5]

/-- `scan_with_ip_neigh` consults platform, `run`, clock, reverse DNS. -/
theorem scan_with_ip_neigh_env (h1 : e1.platformSystem = e2.platformSystem)
    (h3 : e1.run = e2.run) (h5 : e1.getfqdn = e2.getfqdn) (h6 : e1.clock = e2.clock) :
    scan_with_ip_neigh e1 = scan_with_ip_neigh e2 := by
  simp only [scan_with_ip_neigh, get_os_type_env e1 e2 h1, h3,
    neighLoop_env e1 e2 h5 h6]

/-- `ping_sweep` consults platform and the timed `run` outcomes. -/
theorem ping_sweep_env (h1 : e1.platformSystem = e2.platformSystem)
    (h4 : e1.runPing = e2.runPing) (net : String) :
    ping_sweep e1 net = ping_sweep e2 net := by
  simp only [ping_sweep, pingCmd, get_os_type_env e1 e2 h1, h4]

/-- The per-active-IP ARP lookup loop consults platform, `run`, clock and
reverse DNS. -/
theorem arpLookupLoop_env (h1 : e1.platformSystem = e2.platformSystem)
    (h3 : e1.run = e2.run) (h5 : e1.getfqdn = e2.getfqdn) (h6 : e1.clock = e2.clock) :
    ∀ (l : List String) (k : Nat), arpLookupLoop e1 k l = arpLookupLoop e2 k l := by
  intro l
  induction l with
  | nil => intro k; rfl
  | cons ip rest ih =>
    intro k
    simp only [arpLookupLoop, get_os_type_env e1 e2 h1, h3, h6, ih,
      resolveHost_env e1 e2 h5]

/-- The ping fallback block consults everything except the debug flag. -/
theorem pingBlock_env (h1 : e1.platformSystem = e2.platformSystem)
    (h3 : e1.run = e2.run) (h4 : e1.runPing = e2.runPing)
    (h5 : e1.getfqdn = e2.getfqdn) (h6 : e1.clock = e2.clock) :
    pingBlock e1 = pingBlock e2 := by
  simp only [pingBlock, get_default_interface_env e1 e2 h1 h3,
    get_interface_ip_env e1 e2 h1 h3, ping_sweep_env e1 e2 h1 h4,
    arpLookupLoop_env e1 e2 h1 h3 h5 h6]

/-- C10: `scan()` is deterministic in its external inputs: two environments
agreeing on platform detection, privilege (euid), every tool invocation
outcome, reverse DNS, and the clock produce identical device lists — the
debug flag in particular is irrelevant to the result. -/
theorem c10_scan_deterministic
    (h1 : e1.platformSystem = e2.platformSystem) (h2 : e1.euid = e2.euid)
    (h3 : e1.run = e2.run) (h4 : e1.runPing = e2.runPing)
    (h5 : e1.getfqdn = e2.getfqdn) (h6 : e1.clock = e2.clock) :
    scan_network e1 = scan_network e2 := by
  simp only [scan_network, is_tool_available_env e1 e2 h3,
    is_root_env e1 e2 h1 h2, get_os_type_env e1 e2 h1,
    scan_with_arp_scan_env e1 e2 h1 h2 h3 h6,
    scan_with_arp_command_env e1 e2 h1 h3 h5 h6,
    scan_with_ip_neigh_env e1 e2 h1 h3 h5 h6,
    pingBlock_env e1 e2 h1 h3 h4 h5 h6]

end EnvIrrelevance

/-- C10 witness: the two concrete environments above (which differ in the
debug flag) give equal scan results. -/
theorem c10_scan_deterministic_witness : scan_network w10a = scan_network w10b :=
  c10_scan_deterministic w10a w10b rfl rfl rfl rfl rfl rfl

/-- C9: in the environment where spawning `which arp-scan` raises,
`scan_network` propagates the exception to its caller instead of returning
a list — `is_tool_available` catches only `CalledProcessError`. -/
theorem c9_scan_propagates : scan_network envNoWhich = .error () := by decide

/-- C3 counterexample: on an input with fewer than 12 hex digits,
`normalize_mac` signals nothing — it returns the short regrouping — while
the spec's `normalizeMAC` demands an `InvalidFormat` failure. -/
theorem c3_normalize_mac_cex :
    normalize_mac "ab" = "ab" ∧ normalizeMacSpec "ab" = none := by decide

/-- C3 amended: `normalize_mac` strips non-hex characters from the
lowercased input and regroups into colon-joined 2-digit chunks; with 12 or
more hex digits it truncates to the first 12 (six pairs); with fewer it
never fails, returning the regrouping of all remaining digits (final chunk
possibly a single digit). -/
theorem c3_normalize_mac_amended (s : String) :
    (12 ≤ (hexFilterLower s).length →
      normalize_mac s = ⟨joinColon (chunk2 ((hexFilterLower s).take 12))⟩) ∧
    ((hexFilterLower s).length < 12 →
      normalize_mac s = ⟨joinColon (chunk2 (hexFilterLower s))⟩) := by
  constructor
  · intro _
    unfold normalize_mac
    rw [chunk2_take 6]
  · intro h
    unfold normalize_mac
    rw [chunk2_take 6]
    rw [List.take_of_length_le (by omega)]

/-- C3 amended witness at a 12-digit input. -/
theorem c3_normalize_mac_amended_witness :
    12 ≤ (hexFilterLower "AA:BB:CC:DD:EE:FF").length ∧
      normalize_mac "AA:BB:CC:DD:EE:FF" =
        ⟨joinColon (chunk2 ((hexFilterLower "AA:BB:CC:DD:EE:FF").take 12))⟩ :=
  ⟨by decide, (c3_normalize_mac_amended "AA:BB:CC:DD:EE:FF").1 (by decide)⟩

/-! ## Structural characterization of the MAC regex (C5) -/

/-- Members of a `takeWhile` satisfy the predicate. -/
theorem mem_takeWhile_p (p : Char → Bool) :
    ∀ l : List Char, ∀ c ∈ l.takeWhile p, p c = true := by
  intro l
  induction l with
  | nil => intro c hc; simp [List.takeWhile] at hc
  | cons a rest ih =>
    intro c hc
    by_cases ha : p a = true
    · rw [List.takeWhile_cons_of_pos ha] at hc
      rcases List.mem_cons.mp hc with hc | hc
      · rw [hc]; exact ha
      · exact ih c hc
    · rw [List.takeWhile_cons_of_neg ha] at hc
      simp at hc

/-- `takeWhile` across an all-satisfying block. -/
theorem takeWhile_append_all (p : Char → Bool) (r : List Char) :
    ∀ g : List Char, (∀ c ∈ g, p c = true) →
      (g ++ r).takeWhile p = g ++ r.takeWhile p := by
  intro g
  induction g with
  | nil => intro _; simp
  | cons a g ih =>
    intro hg
    have ha : p a = true := hg a (by simp)
    simp only [List.cons_append, List.takeWhile_cons_of_pos ha]
    rw [ih (fun c hc => hg c (by simp [hc]))]

/-- `dropWhile` across an all-satisfying block. -/
theorem dropWhile_append_all (p : Char → Bool) (r : List Char) :
    ∀ g : List Char, (∀ c ∈ g, p c = true) →
      (g ++ r).dropWhile p = r.dropWhile p := by
  intro g
  induction g with
  | nil => intro _; simp
  | cons a g ih =>
    intro hg
    have ha : p a = true := hg a (by simp)
    simp only [List.cons_append, List.dropWhile_cons_of_pos ha]
    exact ih (fun c hc => hg c (by simp [hc]))

/-- A maximal hex run whose length tests 1-or-2 is a `HexGroup`. -/
theorem hexRunHexGroup (l : List Char)
    (hlen : (decide ((l.takeWhile hexCh).length = 1) ||
      decide ((l.takeWhile hexCh).length = 2)) = true) :
    HexGroup (l.takeWhile hexCh) := by
  rw [Bool.or_eq_true] at hlen
  have h12 : (l.takeWhile hexCh).length = 1 ∨ (l.takeWhile hexCh).length = 2 := by
    rcases hlen with h | h
    · exact Or.inl (of_decide_eq_true h)
    · exact Or.inr (of_decide_eq_true h)
  refine ⟨?_, by omega, mem_takeWhile_p hexCh l⟩
  intro hnil
  rw [hnil] at h12
  simp at h12

/-- Conversely, a `HexGroup`'s length tests 1-or-2. -/
theorem hexGroupLen (g : List Char) (hg : HexGroup g) :
    (decide (g.length = 1) || decide (g.length = 2)) = true := by
  obtain ⟨hne, hle, _⟩ := hg
  have hpos := List.length_pos.mpr hne
  have : g.length = 1 ∨ g.length = 2 := by omega
  rcases this with h | h <;> simp [h]

/-- The MAC parser accepts exactly the interleavings of `n+1` hex groups
with `n` independent separators, with an optional trailing newline. -/
theorem macGroups_iff (n : Nat) : ∀ l, macGroups n l = true ↔
    ∃ gs ss tail, gs.length = n + 1 ∧ ss.length = n ∧
      (∀ g ∈ gs, HexGroup g) ∧ (∀ c ∈ ss, c = ':' ∨ c = '-') ∧
      (tail = [] ∨ tail = ['\n']) ∧ l = macConcat gs ss ++ tail := by
  induction n with
  | zero =>
    intro l
    constructor
    · intro h
      simp only [macGroups, Bool.and_eq_true] at h
      obtain ⟨hlen, hrest⟩ := h
      refine ⟨[l.takeWhile hexCh], [], l.dropWhile hexCh, rfl, rfl, ?_, ?_, ?_, ?_⟩
      · intro g hg
        rw [List.mem_singleton] at hg
        subst hg
        exact hexRunHexGroup l hlen
      · intro c hc
        simp at hc
      · revert hrest
        match l.dropWhile hexCh with
        | [] => intro _; exact Or.inl rfl
        | [c] =>
          intro hc
          have : c = '\n' := by simpa using hc
          rw [this]
          exact Or.inr rfl
        | _ :: _ :: _ => intro hfalse; exact absurd hfalse (by simp)
      · rw [macConcat]
        exact (List.takeWhile_append_dropWhile ..).symm
    · rintro ⟨gs, ss, tail, hgs, hss, hgrp, _, htail, hl⟩
      obtain ⟨g, hgeq⟩ := List.length_eq_one.mp hgs
      subst hgeq
      rw [List.length_eq_zero] at hss
      subst hss
      obtain ⟨hne, hle, hhex⟩ := hgrp g (List.mem_singleton.mpr rfl)
      rw [macConcat] at hl
      subst hl
      have htail0 : tail.takeWhile hexCh = [] := by
        rcases htail with h | h <;> rw [h] <;> rfl
      have htaild : tail.dropWhile hexCh = tail := by
        rcases htail with h | h <;> rw [h] <;> rfl
      have htk : (g ++ tail).takeWhile hexCh = g := by
        rw [takeWhile_append_all hexCh tail g hhex, htail0, List.append_nil]
      have hdr : (g ++ tail).dropWhile hexCh = tail := by
        rw [dropWhile_append_all hexCh tail g hhex, htaild]
      simp only [macGroups, htk, hdr, Bool.and_eq_true]
      refine ⟨hexGroupLen g ⟨hne, hle, hhex⟩, ?_⟩
      rcases htail with h | h <;> rw [h] <;> rfl
  | succ n ih =>
    intro l
    constructor
    · intro h
      simp only [macGroups, Bool.and_eq_true] at h
      obtain ⟨hlen, hrest⟩ := h
      revert hrest
      match hdw : l.dropWhile hexCh with
      | [] => intro hfalse; exact absurd hfalse (by simp)
      | c :: rest2 =>
        intro h
        rw [Bool.and_eq_true] at h
        obtain ⟨hsep, hrec⟩ := h
        obtain ⟨gs', ss', tail, hgs', hss', hgrp', hsep', htail, hl'⟩ :=
          (ih rest2).mp hrec
        refine ⟨l.takeWhile hexCh :: gs', c :: ss', tail,
          by simp [hgs'], by simp [hss'], ?_, ?_, htail, ?_⟩
        · intro g hg
          rcases List.mem_cons.mp hg with hg | hg
          · subst hg
            exact hexRunHexGroup l hlen
          · exact hgrp' g hg
        · intro s hs
          rcases List.mem_cons.mp hs with hs | hs
          · subst hs
            rw [Bool.or_eq_true] at hsep
            rcases hsep with h1 | h1
            · exact Or.inl (by simpa using h1)
            · exact Or.inr (by simpa using h1)
          · exact hsep' s hs
        · have hcat : macConcat (l.takeWhile hexCh :: gs') (c :: ss') =
              l.takeWhile hexCh ++ c :: macConcat gs' ss' := by
            rw [macConcat]
          rw [hcat]
          have hsh : (l.takeWhile hexCh ++ c :: macConcat gs' ss') ++ tail =
              l.takeWhile hexCh ++ c :: (macConcat gs' ss' ++ tail) := by simp
          rw [hsh, ← hl', ← hdw]
          exact (List.takeWhile_append_dropWhile ..).symm
    · rintro ⟨gs, ss, tail, hgs, hss, hgrp, hsep, htail, hl⟩
      rcases gs with _ | ⟨g, gs'⟩
      · simp at hgs
      rcases ss with _ | ⟨c, ss'⟩
      · simp at hss
      obtain ⟨hne, hle, hhex⟩ := hgrp g (by simp)
      have hcs : c = ':' ∨ c = '-' := hsep c (by simp)
      have hcnh : hexCh c = false := by
        rcases hcs with h | h <;> rw [h] <;> rfl
      rw [macConcat] at hl
      have hassoc : g ++ c :: macConcat gs' ss' ++ tail =
          g ++ (c :: (macConcat gs' ss' ++ tail)) := by simp
      rw [hassoc] at hl
      subst hl
      have htk : (g ++ (c :: (macConcat gs' ss' ++ tail))).takeWhile hexCh = g := by
        rw [takeWhile_append_all hexCh _ g hhex, List.takeWhile_cons_of_neg (by simp [hcnh]),
          List.append_nil]
      have hdr : (g ++ (c :: (macConcat gs' ss' ++ tail))).dropWhile hexCh =
          c :: (macConcat gs' ss' ++ tail) := by
        rw [dropWhile_append_all hexCh _ g hhex, List.dropWhile_cons_of_neg (by simp [hcnh])]
      simp only [macGroups, htk, hdr, Bool.and_eq_true]
      refine ⟨hexGroupLen g ⟨hne, hle, hhex⟩, ?_, ?_⟩
      · rcases hcs with h | h <;> rw [h] <;> rfl
      · exact (ih _).mpr ⟨gs', ss', tail, by simpa using hgs, by simpa using hss,
          fun g' hg' => hgrp g' (by simp [hg']), fun s hs' => hsep s (by simp [hs']),
          htail, rfl⟩

/-- C5 counterexample: the code accepts mixed separators, which the claim's
uniform-separator reading rejects. -/
theorem c5_is_valid_mac_cex :
    is_valid_mac "aa:bb-cc:dd-ee:ff" = true ∧
      specUniformMAC "aa:bb-cc:dd-ee:ff" = false := by decide

/-- C5 amended: `is_valid_mac s` holds iff `s` is six groups of 1–2 hex
digits where each of the five separators is independently `':'` or `'-'`
(mixed separators allowed), optionally followed by a single trailing
newline (an artifact of Python's `$`). -/
theorem c5_is_valid_mac_amended (s : String) :
    is_valid_mac s = true ↔ MacShapeMixed s.data := by
  rw [is_valid_mac, MacShapeMixed]
  exact macGroups_iff 5 s.data

/-! ## Structural characterization of Python int() and `is_valid_ip` (C4) -/

/-- Whitespace characters are not digits. -/
theorem ws_not_digit (c : Char) (h : pyWs c = true) : isDigitCh c = false := by
  simp only [pyWs, Bool.or_eq_true, beq_iff_eq] at h
  rcases h with ((((h | h) | h) | h) | h) | h <;> subst h <;> rfl

/-- Digits are not whitespace. -/
theorem digit_not_ws (c : Char) (h : isDigitCh c = true) : pyWs c = false := by
  cases hw : pyWs c
  · rfl
  · rw [ws_not_digit c hw] at h
    cases h

/-- A digit is not an underscore. -/
theorem digit_ne_underscore (c : Char) (h : isDigitCh c = true) : c ≠ '_' := by
  intro he
  rw [he] at h
  cases h

mutual

/-- Every character of a `digitsTailB` string is a digit or an
underscore. -/
theorem digitsTailB_mem : ∀ l : List Char, digitsTailB l = true →
    ∀ c ∈ l, isDigitCh c = true ∨ c = '_'
  | [], _, c, hc => by simp at hc
  | a :: rest, h, c, hc => by
    rw [digitsTailB] at h
    by_cases ha : isDigitCh a = true
    · rw [if_pos ha] at h
      rcases List.mem_cons.mp hc with hc | hc
      · exact Or.inl (hc ▸ ha)
      · exact digitsTailB_mem rest h c hc
    · rw [if_neg ha] at h
      by_cases hu : a = '_'
      · rw [if_pos hu] at h
        rcases List.mem_cons.mp hc with hc | hc
        · exact Or.inr (hc.trans hu)
        · exact digitsAfterUnd_mem rest h c hc
      · rw [if_neg hu] at h
        cases h

/-- Every character after an underscore is a digit or an underscore. -/
theorem digitsAfterUnd_mem : ∀ l : List Char, digitsAfterUnd l = true →
    ∀ c ∈ l, isDigitCh c = true ∨ c = '_'
  | [], h, c, hc => by simp at hc
  | d :: rest, h, c, hc => by
    rw [digitsAfterUnd, Bool.and_eq_true] at h
    rcases List.mem_cons.mp hc with hc | hc
    · exact Or.inl (hc ▸ h.1)
    · exact digitsTailB_mem rest h.2 c hc

end

mutual

/-- `pyDigitsGo` computes the fold of the underscore-filtered digits when
the tail grammar holds, and fails otherwise. -/
theorem pyDigitsGo_spec : ∀ (l : List Char) (acc : Nat),
    pyDigitsGo acc l =
      if digitsTailB l then
        some ((l.filter (fun c => c != '_')).foldl (fun a c => 10 * a + digVal c) acc)
      else none
  | [], acc => by simp [pyDigitsGo, digitsTailB]
  | a :: rest, acc => by
    by_cases ha : isDigitCh a = true
    · have hane : (a != '_') = true := by
        simp [digit_ne_underscore a ha]
      rw [pyDigitsGo, if_pos ha, digitsTailB, if_pos ha,
        pyDigitsGo_spec rest (10 * acc + digVal a)]
      simp only [List.filter_cons, hane, if_true, List.foldl_cons]
    · rw [pyDigitsGo, if_neg ha, digitsTailB, if_neg ha]
      by_cases hu : a = '_'
      · have haf : (a != '_') = false := by simp [hu]
        rw [if_pos hu, if_pos hu, pyDigitsUnd_spec rest acc]
        simp [List.filter_cons, haf]
      · rw [if_neg hu, if_neg hu]
        simp

/-- `pyDigitsUnd` likewise, against the after-underscore grammar. -/
theorem pyDigitsUnd_spec : ∀ (l : List Char) (acc : Nat),
    pyDigitsUnd acc l =
      if digitsAfterUnd l then
        some ((l.filter (fun c => c != '_')).foldl (fun a c => 10 * a + digVal c) acc)
      else none
  | [], acc => by simp [pyDigitsUnd, digitsAfterUnd]
  | d :: rest, acc => by
    by_cases hd : isDigitCh d = true
    · have hdne : (d != '_') = true := by
        simp [digit_ne_underscore d hd]
      rw [pyDigitsUnd, if_pos hd, digitsAfterUnd,
        pyDigitsGo_spec rest (10 * acc + digVal d)]
      simp only [List.filter_cons, hdne, if_true, hd, Bool.true_and, List.foldl_cons]
    · rw [pyDigitsUnd, if_neg hd, digitsAfterUnd]
      simp [hd]

end

/-- `pyDigits` computes the decimal value of the underscore-filtered digits
exactly on the digit grammar. -/
theorem pyDigits_spec (l : List Char) :
    pyDigits l =
      if digitsCoreB l then some (decVal (l.filter (fun c => c != '_'))) else none := by
  match l with
  | [] => rfl
  | a :: rest =>
    rw [pyDigits, digitsCoreB]
    by_cases ha : isDigitCh a = true
    · have hane : (a != '_') = true := by
        simp [digit_ne_underscore a ha]
      rw [if_pos ha, pyDigitsGo_spec rest (digVal a)]
      by_cases ht : digitsTailB rest = true
      · rw [if_pos ht, if_pos (by simp [ha, ht])]
        unfold decVal
        simp only [List.filter_cons, hane, if_true, List.foldl_cons]
        have h0 : 10 * 0 + digVal a = digVal a := by omega
        rw [h0]
      · rw [if_neg ht, if_neg (by simp [ht])]
    · rw [if_neg ha, if_neg (by simp [ha])]

/-- Splitting a string into leading whitespace, its strip, and trailing
whitespace. -/
theorem pyStrip_decomp (t : List Char) :
    ∃ w1 w2, (∀ c ∈ w1, pyWs c = true) ∧ (∀ c ∈ w2, pyWs c = true) ∧
      t = w1 ++ pyStrip t ++ w2 := by
  refine ⟨t.takeWhile pyWs, ((t.dropWhile pyWs).reverse.takeWhile pyWs).reverse,
    mem_takeWhile_p pyWs t, ?_, ?_⟩
  · intro c hc
    exact mem_takeWhile_p pyWs _ c (by simpa using hc)
  · unfold pyStrip
    conv_lhs => rw [← List.takeWhile_append_dropWhile (p := pyWs) (l := t)]
    rw [List.append_assoc]
    congr 1
    rw [← List.reverse_append, List.takeWhile_append_dropWhile, List.reverse_reverse]

/-- Stripping a whitespace-free core sandwiched in whitespace returns the
core. -/
theorem pyStrip_sandwich (w1 m w2 : List Char) (hw1 : ∀ c ∈ w1, pyWs c = true)
    (hw2 : ∀ c ∈ w2, pyWs c = true) (hm : m ≠ []) (hmw : ∀ c ∈ m, pyWs c = false) :
    pyStrip (w1 ++ m ++ w2) = m := by
  unfold pyStrip
  rw [List.append_assoc, dropWhile_append_all pyWs _ w1 hw1]
  rcases m with _ | ⟨m0, m'⟩
  · exact absurd rfl hm
  rw [List.cons_append, List.dropWhile_cons_of_neg (by simp [hmw m0 (by simp)])]
  rw [← List.cons_append, List.reverse_append,
    dropWhile_append_all pyWs _ w2.reverse (fun c hc => hw2 c (by simpa using hc))]
  rcases hre : (m0 :: m').reverse with _ | ⟨r0, rr⟩
  · simp at hre
  have hr0 : r0 ∈ (m0 :: m') := by
    have h1 : r0 ∈ (m0 :: m').reverse := by rw [hre]; simp
    exact List.mem_reverse.mp h1
  rw [List.dropWhile_cons_of_neg (by simp [hmw r0 hr0])]
  rw [← hre, List.reverse_reverse]

/-- `pyInt` succeeds with value `n` exactly on Python-int tokens of value
`n`: optional surrounding whitespace, one optional sign, digits with single
underscores. -/
theorem pyInt_iff (t : List Char) (n : Int) : pyInt t = some n ↔ PyIntToken t n := by
  constructor
  · intro h
    rw [pyInt] at h
    obtain ⟨w1, w2, hw1, hw2, ht⟩ := pyStrip_decomp t
    rcases hps : pyStrip t with _ | ⟨c, rest⟩
    · rw [hps] at h
      cases h
    · rw [hps] at h ht
      dsimp only at h
      by_cases hp : c = '+'
      · rw [if_pos hp] at h
        obtain ⟨v, hv, hn⟩ := Option.map_eq_some'.mp h
        rw [pyDigits_spec] at hv
        by_cases hcore : digitsCoreB rest = true
        · rw [if_pos hcore] at hv
          refine ⟨w1, ['+'], rest, w2, ?_, hw1, hw2, Or.inr (Or.inl rfl), hcore, ?_⟩
          · rw [ht, hp]
            simp
          · rw [if_neg (by simp), ← hn, Option.some.inj hv]
            rfl
        · rw [if_neg hcore] at hv
          cases hv
      · by_cases hm : c = '-'
        · rw [if_neg hp, if_pos hm] at h
          obtain ⟨v, hv, hn⟩ := Option.map_eq_some'.mp h
          rw [pyDigits_spec] at hv
          by_cases hcore : digitsCoreB rest = true
          · rw [if_pos hcore] at hv
            refine ⟨w1, ['-'], rest, w2, ?_, hw1, hw2, Or.inr (Or.inr rfl), hcore, ?_⟩
            · rw [ht, hm]
              simp
            · rw [if_pos rfl, ← hn, Option.some.inj hv]
              rfl
          · rw [if_neg hcore] at hv
            cases hv
        · rw [if_neg hp, if_neg hm] at h
          obtain ⟨v, hv, hn⟩ := Option.map_eq_some'.mp h
          rw [pyDigits_spec] at hv
          by_cases hcore : digitsCoreB (c :: rest) = true
          · rw [if_pos hcore] at hv
            refine ⟨w1, [], c :: rest, w2, ?_, hw1, hw2, Or.inl rfl, hcore, ?_⟩
            · rw [ht]
              simp
            · rw [if_neg (by simp), ← hn, Option.some.inj hv]
              rfl
          · rw [if_neg hcore] at hv
            cases hv
  · rintro ⟨w1, sgn, ds, w2, ht, hw1, hw2, hsgn, hcore, hval⟩
    have hdsne : ds ≠ [] := by
      intro he
      rw [he] at hcore
      cases hcore
    have hdsd : ∀ c ∈ ds, isDigitCh c = true ∨ c = '_' := by
      rcases ds with _ | ⟨d0, dr⟩
      · exact absurd rfl hdsne
      · rw [digitsCoreB, Bool.and_eq_true] at hcore
        intro c hc
        rcases List.mem_cons.mp hc with hc | hc
        · exact Or.inl (hc ▸ hcore.1)
        · exact digitsTailB_mem dr hcore.2 c hc
    have hdsnw : ∀ c ∈ ds, pyWs c = false := by
      intro c hc
      rcases hdsd c hc with hd | hu
      · exact digit_not_ws c hd
      · rw [hu]
        rfl
    have hmw : ∀ c ∈ sgn ++ ds, pyWs c = false := by
      intro c hc
      rcases List.mem_append.mp hc with hc | hc
      · rcases hsgn with h | h | h <;> rw [h] at hc
        · simp at hc
        · rw [List.mem_singleton] at hc
          rw [hc]
          rfl
        · rw [List.mem_singleton] at hc
          rw [hc]
          rfl
      · exact hdsnw c hc
    have hstrip : pyStrip t = sgn ++ ds := by
      have hre : t = w1 ++ (sgn ++ ds) ++ w2 := by
        rw [ht]
        simp
      rw [hre, pyStrip_sandwich w1 (sgn ++ ds) w2 hw1 hw2
        (by
          intro he
          rcases List.append_eq_nil.mp he with ⟨-, h2⟩
          exact hdsne h2) hmw]
    rcases ds with _ | ⟨d0, dr⟩
    · exact absurd rfl hdsne
    have hd0 : isDigitCh d0 = true := by
      rw [digitsCoreB, Bool.and_eq_true] at hcore
      exact hcore.1
    rcases hsgn with h | h | h
    · subst h
      rw [pyInt, hstrip, List.nil_append]
      dsimp only
      rw [if_neg (fun he => by rw [he] at hd0; cases hd0),
        if_neg (fun he => by rw [he] at hd0; cases hd0),
        pyDigits_spec, if_pos hcore, hval, if_neg (by simp)]
      rfl
    · subst h
      rw [pyInt, hstrip, List.singleton_append]
      dsimp only
      rw [if_pos rfl, pyDigits_spec, if_pos hcore, hval, if_neg (by simp)]
      rfl
    · subst h
      rw [pyInt, hstrip, List.singleton_append]
      dsimp only
      rw [if_neg (by decide), if_pos rfl,
        pyDigits_spec, if_pos hcore, hval, if_pos rfl]
      rfl

/-- The per-token test inside `is_valid_ip` holds exactly on Python-int
tokens with value in `[0, 255]`. -/
theorem validTok_iff (p : List Char) :
    (match pyInt p with
     | some n => decide (0 ≤ n ∧ n ≤ 255)
     | none => false) = true ↔ ∃ n : Int, PyIntToken p n ∧ 0 ≤ n ∧ n ≤ 255 := by
  rcases hp : pyInt p with _ | n
  · constructor
    · intro h
      cases h
    · rintro ⟨n, htok, -, -⟩
      rw [(pyInt_iff p n).mpr htok] at hp
      cases hp
  · constructor
    · intro h
      exact ⟨n, (pyInt_iff p n).mp hp, (of_decide_eq_true h).1, (of_decide_eq_true h).2⟩
    · rintro ⟨m, htok, h0, h255⟩
      have hm : pyInt p = some m := (pyInt_iff p m).mpr htok
      rw [hp] at hm
      rw [← Option.some.inj hm] at h0 h255
      exact decide_eq_true ⟨h0, h255⟩

/-- C4 counterexample: the code accepts a signed token (Python `int()`
leniency), which the claim's no-garbage reading rejects. -/
theorem c4_is_valid_ip_cex :
    is_valid_ip "+1.2.3.4" = true ∧ specStrictIPv4 "+1.2.3.4" = false := by decide

/-- C4 amended: `is_valid_ip s` holds iff `s` splits on `'.'` into exactly
4 tokens, each accepted by Python `int()` semantics — which additionally
tolerate surrounding whitespace, one leading sign, and single underscores
between digits — with value in `[0, 255]`. -/
theorem c4_is_valid_ip_amended (s : String) :
    is_valid_ip s = true ↔ IpShapePy s := by
  rw [IpShapePy]
  show ((splitChar '.' s.data).length = 4 &&
    (splitChar '.' s.data).all _) = true ↔ _
  rw [Bool.and_eq_true]
  constructor
  · rintro ⟨h1, h2⟩
    refine ⟨of_decide_eq_true h1, ?_⟩
    intro p hp
    exact (validTok_iff p).mp (List.all_eq_true.mp h2 p hp)
  · rintro ⟨h1, h2⟩
    refine ⟨decide_eq_true h1, List.all_eq_true.mpr ?_⟩
    intro p hp
    exact (validTok_iff p).mpr (h2 p hp)

/-! ## The normalization pass as first-seen-wins dedup (C2) -/

/-- The `seen`-set loop equals filtering then first-occurrence dedup. -/
theorem normAux_eq (xs : List Device) : ∀ seen : List String,
    normAux seen xs =
      (dedupFirst ((xs.filter validR).filter
        (fun d => !(seen.contains (normKey d))))).map normRec := by
  induction xs with
  | nil => intro seen; simp [normAux, dedupFirst]
  | cons d xs ih =>
    intro seen
    rw [normAux]
    by_cases hv : validR d = true
    · rw [if_neg (by simp [hv]), List.filter_cons_of_pos hv]
      by_cases hs : seen.contains (normalize_mac d.mac) = true
      · rw [if_pos hs,
          List.filter_cons_of_neg
            (by simp only [normKey, hs, Bool.not_true]; exact Bool.false_ne_true),
          ih seen]
      · rw [if_neg hs,
          List.filter_cons_of_pos (by simp only [normKey, hs, Bool.not_false]),
          dedupFirst, List.map_cons, ih (normalize_mac d.mac :: seen)]
        congr 2
        rw [List.filter_filter, List.filter_filter, List.filter_filter]
        congr 1
        apply List.filter_congr
        intro a _
        simp only [normKey, List.contains_cons, Bool.not_or, bne, Bool.and_assoc]
    · rw [if_pos (by simp [hv]), List.filter_cons_of_neg hv, ih seen]

/-- Everything `dedupFirst` keeps comes from its input (by strong induction
on length). -/
theorem dedupFirst_sub_n : ∀ (n : Nat) (l : List Device), l.length ≤ n →
    ∀ x ∈ dedupFirst l, x ∈ l := by
  intro n
  induction n with
  | zero =>
    intro l hl x hx
    rcases l with _ | ⟨d, rest⟩
    · rw [dedupFirst] at hx
      simp at hx
    · simp at hl
  | succ n ih =>
    intro l hl x hx
    rcases l with _ | ⟨d, rest⟩
    · rw [dedupFirst] at hx
      simp at hx
    · rw [dedupFirst] at hx
      rcases List.mem_cons.mp hx with h | h
      · exact h ▸ List.mem_cons_self ..
      · have hlen : (rest.filter
            (fun d' => normalize_mac d'.mac != normalize_mac d.mac)).length ≤ n := by
          have := List.length_filter_le
            (fun d' => normalize_mac d'.mac != normalize_mac d.mac) rest
          simp only [List.length_cons] at hl
          omega
        have hx' := ih _ hlen x h
        exact List.mem_cons_of_mem _ (List.mem_of_mem_filter hx')

/-- Everything `dedupFirst` keeps comes from its input. -/
theorem dedupFirst_sub (l : List Device) : ∀ x ∈ dedupFirst l, x ∈ l :=
  dedupFirst_sub_n l.length l (Nat.le_refl _)

/-- The normalization keys of `dedupFirst`'s output are pairwise distinct
(by strong induction on length). -/
theorem dedupFirst_nodup_n : ∀ (n : Nat) (l : List Device), l.length ≤ n →
    ((dedupFirst l).map normKey).Nodup := by
  intro n
  induction n with
  | zero =>
    intro l hl
    rcases l with _ | ⟨d, rest⟩
    · rw [dedupFirst]
      simp
    · simp at hl
  | succ n ih =>
    intro l hl
    rcases l with _ | ⟨d, rest⟩
    · rw [dedupFirst]
      simp
    · rw [dedupFirst, List.map_cons, List.nodup_cons]
      have hlen : (rest.filter
          (fun d' => normalize_mac d'.mac != normalize_mac d.mac)).length ≤ n := by
        have := List.length_filter_le
          (fun d' => normalize_mac d'.mac != normalize_mac d.mac) rest
        simp only [List.length_cons] at hl
        omega
      refine ⟨?_, ih _ hlen⟩
      intro hmem
      obtain ⟨x, hx, hkx⟩ := List.mem_map.mp hmem
      have hxin := dedupFirst_sub _ x hx
      have hxf := List.of_mem_filter hxin
      rw [normKey, normKey] at hkx
      rw [hkx] at hxf
      simp at hxf

/-- The normalization pass is validation-filter followed by
first-occurrence dedup and per-record MAC normalization. -/
theorem normalizePass_eq (xs : List Device) :
    normalizePass xs = (dedupFirst (xs.filter validR)).map normRec := by
  rw [normalizePass, normAux_eq xs []]
  have hid : (xs.filter validR).filter
      (fun d => !(([] : List String).contains (normKey d))) = xs.filter validR := by
    apply List.filter_eq_self.mpr
    intro a _
    rfl
  rw [hid]

/-- The MACs of the normalization pass output are pairwise distinct. -/
theorem normalizePass_nodup (xs : List Device) :
    ((normalizePass xs).map (fun d => d.mac)).Nodup := by
  rw [normalizePass_eq xs, List.map_map]
  have hfm : ((fun d : Device => d.mac) ∘ normRec) = normKey := by
    funext d
    rfl
  rw [hfm]
  exact dedupFirst_nodup_n _ _ (Nat.le_refl _)

/-- Every record of the normalization pass output is the normalization of
some valid input record. -/
theorem mem_normalizePass (xs : List Device) (d : Device) (hd : d ∈ normalizePass xs) :
    ∃ r ∈ xs, validR r = true ∧ d = normRec r := by
  rw [normalizePass_eq xs] at hd
  obtain ⟨r, hr, hrd⟩ := List.mem_map.mp hd
  have hrin := dedupFirst_sub _ r hr
  exact ⟨r, List.mem_of_mem_filter hrin, List.of_mem_filter hrin, hrd.symm⟩

/-- C2: the normalization pass equals validation-filter followed by
first-seen-wins dedup on the normalized MAC plus the per-record MAC
normalization (records with invalid IP or MAC are discarded; of records
sharing a normalized MAC only the first in input order survives), and the
MACs of the output are pairwise distinct. -/
theorem c2_normalize_dedup (xs : List Device) :
    normalizePass xs = (dedupFirst (xs.filter validR)).map normRec ∧
      ((normalizePass xs).map (fun d => d.mac)).Nodup :=
  ⟨normalizePass_eq xs, normalizePass_nodup xs⟩

/-! ## Orchestrator trace consistency (C1, C6) -/

/-- `lastResult` on an empty trace. -/
theorem lastResult_nil : lastResult [] = [] := rfl

/-- `lastResult` on a singleton trace. -/
theorem lastResult_single (s : Strat) (l : List Device) :
    lastResult [(s, l)] = l := rfl

/-- `lastResult` after appending one invocation. -/
theorem lastResult_append_one (tr : List (Strat × List Device)) (s : Strat)
    (l : List Device) : lastResult (tr ++ [(s, l)]) = l := by
  rw [lastResult, List.getLast?_concat]

/-- `scan_network` returns exactly the normalization of the raw list held
after the instrumented strategy cascade. -/
theorem scanTrace_consistent (e : Env) :
    scan_network e = (scanTrace e).map (fun tr => normalizePass (lastResult tr)) := by
  rw [scan_network, scanTrace]
  rcases h1 : is_tool_available e "arp-scan" with u1 | t1 <;>
    rcases h2 : is_tool_available e "arp" with u2 | t2 <;>
      rcases h3 : is_tool_available e "ip" with u3 | t3 <;>
        simp only [h1, h2, h3, bind, Except.bind, Except.map, pure, Except.pure,
          apply_ite lastResult, lastResult_single, lastResult_nil,
          lastResult_append_one] <;>
        (try split_ifs) <;> rfl

/-- `lastResult` is the payload of the last trace entry. -/
theorem lastResult_get (tr : List (Strat × List Device)) (i : Nat) (hi : i < tr.length)
    (hlast : i + 1 = tr.length) : lastResult tr = (tr.get ⟨i, hi⟩).2 := by
  have hne : tr ≠ [] := by
    intro he
    rw [he] at hi
    simp at hi
  rw [lastResult, List.getLast?_eq_getLast_of_ne_nil hne]
  show (tr.getLast hne).2 = _
  rw [List.getLast_eq_getElem]
  have hieq : i = tr.length - 1 := by omega
  subst hieq
  rfl

/-- Structure of every successful strategy trace: strategies appear in
strictly increasing orchestrator order, and every entry except the last
returned the empty list. -/
theorem scanTrace_good (e : Env) (tr : List (Strat × List Device))
    (h : scanTrace e = .ok tr) :
    (tr.map Prod.fst).Chain' (fun a b => stratIdx a < stratIdx b) ∧
    (∀ x ∈ tr.dropLast, x.2 = []) := by
  rw [scanTrace] at h
  rcases h1 : is_tool_available e "arp-scan" with u1 | t1 <;>
    rcases h2 : is_tool_available e "arp" with u2 | t2 <;>
      rcases h3 : is_tool_available e "ip" with u3 | t3 <;>
        simp only [h1, h2, h3, bind, Except.bind, pure, Except.pure,
          apply_ite lastResult, lastResult_single, lastResult_nil,
          lastResult_append_one] at h <;>
        (try split_ifs at h) <;>
        (try (cases h)) <;>
        refine ⟨by simp [List.chain'_cons, stratIdx], ?_⟩ <;>
        intro x hx <;>
        (try simp_all [List.isEmpty_iff, List.dropLast, List.append_assoc]) <;>
        casesm* _ ∨ _ <;> simp_all

/-- `lastResult` of a nonempty trace is the last entry's list. -/
theorem lastResult_getLast (tr : List (Strat × List Device)) (hne : tr ≠ []) :
    lastResult tr = (tr.getLast hne).2 := by
  rw [lastResult, List.getLast?_eq_getLast_of_ne_nil hne]

/-- C1: in every environment where the strategy cascade completes, the
invoked strategies appear in the fixed order PrivilegedArpScan (arp-scan),
PassiveArpCache (arp), NeighborTable (ip neigh, behind the Linux guard),
PingSweepFallback; every invoked strategy except the last returned the
empty raw list (short-circuit); `scan()` returns the normalization of the
raw list of the last invoked strategy; and if some invoked strategy
returned a non-empty raw list then it is the last invocation — no later
strategy ran — and `scan()`'s result is the normalization of exactly that
list. -/
theorem c1_strategy_order (e : Env) (tr : List (Strat × List Device))
    (h : scanTrace e = .ok tr) :
    (tr.map Prod.fst).Chain' (fun a b => stratIdx a < stratIdx b) ∧
    (∀ x ∈ tr.dropLast, x.2 = []) ∧
    scan_network e = .ok (normalizePass (lastResult tr)) ∧
    (∀ x ∈ tr, x.2 ≠ [] →
      tr.getLast? = some x ∧ scan_network e = .ok (normalizePass x.2)) := by
  obtain ⟨hchain, hempty⟩ := scanTrace_good e tr h
  have hscan : scan_network e = .ok (normalizePass (lastResult tr)) := by
    rw [scanTrace_consistent e, h]
    rfl
  refine ⟨hchain, hempty, hscan, ?_⟩
  intro x hx hne
  have htrne : tr ≠ [] := by
    intro he
    rw [he] at hx
    simp at hx
  have hsplit : tr.dropLast ++ [tr.getLast htrne] = tr := List.dropLast_append_getLast htrne
  have hxlast : x = tr.getLast htrne := by
    rw [← hsplit] at hx
    rcases List.mem_append.mp hx with hmem | hmem
    · exact absurd (hempty x hmem) hne
    · simpa using hmem
  refine ⟨?_, ?_⟩
  · rw [List.getLast?_eq_getLast_of_ne_nil htrne, hxlast]
  · rw [hscan, lastResult_getLast tr htrne, ← hxlast]

/-- C1 witness: in `envC1` the trace is a lone ping-sweep invocation and
the theorem applies to it. -/
theorem c1_strategy_order_witness :
    scanTrace envC1 = .ok [(Strat.pingSweep, [])] ∧
      scan_network envC1 = .ok (normalizePass (lastResult [(Strat.pingSweep, [])])) :=
  ⟨by decide, (c1_strategy_order envC1 [(Strat.pingSweep, [])] (by decide)).2.2.1⟩

/-! ## Shape of normalized MACs (C6, C7) -/

/-- `hexFilterLower` is `listHexLower` on the underlying characters. -/
theorem hexFilterLower_eq (s : String) : hexFilterLower s = listHexLower s.data := rfl

/-- Case split of a hex character into its three ASCII ranges. -/
theorem hexCh_cases (c : Char) (h : hexCh c = true) :
    (48 ≤ c.toNat ∧ c.toNat ≤ 57) ∨ (97 ≤ c.toNat ∧ c.toNat ≤ 102) ∨
      (65 ≤ c.toNat ∧ c.toNat ≤ 70) := by
  rw [hexCh, isDigitCh] at h
  simp only [Bool.or_eq_true, Bool.and_eq_true, decide_eq_true_iff] at h
  rcases h with (⟨h1, h2⟩ | ⟨h1, h2⟩) | ⟨h1, h2⟩
  · exact Or.inl ⟨h1, h2⟩
  · exact Or.inr (Or.inl ⟨h1, h2⟩)
  · exact Or.inr (Or.inr ⟨h1, h2⟩)

/-- A character in the digit or lowercase-hex range is `lowerHexCh`. -/
theorem lowerHexCh_of (c : Char)
    (h : (48 ≤ c.toNat ∧ c.toNat ≤ 57) ∨ (97 ≤ c.toNat ∧ c.toNat ≤ 102)) :
    lowerHexCh c = true := by
  rw [lowerHexCh, isDigitCh]
  rcases h with ⟨h1, h2⟩ | ⟨h1, h2⟩
  · have e1 : '0' ≤ c := h1
    have e2 : c ≤ '9' := h2
    simp [e1, e2]
  · have e1 : 'a' ≤ c := h1
    have e2 : c ≤ 'f' := h2
    simp [e1, e2]

/-- Lowercase hex characters are hex characters. -/
theorem lowerHexCh_hexCh (c : Char) (h : lowerHexCh c = true) : hexCh c = true := by
  rw [lowerHexCh] at h
  rw [hexCh, h, Bool.true_or]

/-- `pyLower` is the identity outside the uppercase range. -/
theorem pyLower_id (c : Char) (h : ¬(65 ≤ c.toNat ∧ c.toNat ≤ 90)) : pyLower c = c := by
  rw [pyLower, if_neg]
  intro hcond
  rw [Bool.and_eq_true] at hcond
  exact h ⟨of_decide_eq_true hcond.1, of_decide_eq_true hcond.2⟩

/-- `pyLower` on the uppercase range adds 32 to the code point. -/
theorem pyLower_upper (c : Char) (h1 : 65 ≤ c.toNat) (h2 : c.toNat ≤ 90) :
    (pyLower c).toNat = c.toNat + 32 := by
  have hcond : ('A' ≤ c && c ≤ 'Z') = true := by
    rw [Bool.and_eq_true]
    exact ⟨decide_eq_true h1, decide_eq_true h2⟩
  rw [pyLower, if_pos hcond]
  have hv : (c.toNat + 32).isValidChar := by
    left
    omega
  rw [Char.ofNat, dif_pos hv]
  rfl

/-- Lowercasing a hex character yields a lowercase hex character. -/
theorem pyLower_keeps (c : Char) (h : hexCh c = true) : lowerHexCh (pyLower c) = true := by
  rcases hexCh_cases c h with ⟨h1, h2⟩ | ⟨h1, h2⟩ | ⟨h1, h2⟩
  · rw [pyLower_id c (by omega)]
    exact lowerHexCh_of c (Or.inl ⟨h1, h2⟩)
  · rw [pyLower_id c (by omega)]
    exact lowerHexCh_of c (Or.inr ⟨h1, h2⟩)
  · have h3 := pyLower_upper c h1 (by omega)
    exact lowerHexCh_of (pyLower c) (Or.inr (by omega))

/-- A lowercase hex character is fixed by `pyLower`. -/
theorem pyLower_fix (c : Char) (h : lowerHexCh c = true) : pyLower c = c := by
  rw [lowerHexCh, isDigitCh] at h
  simp only [Bool.or_eq_true, Bool.and_eq_true, decide_eq_true_iff] at h
  apply pyLower_id
  rcases h with ⟨h1, h2⟩ | ⟨h1, h2⟩
  · have n1 : (48 : Nat) ≤ c.toNat := h1
    have n2 : c.toNat ≤ 57 := h2
    omega
  · have n1 : (97 : Nat) ≤ c.toNat := h1
    have n2 : c.toNat ≤ 102 := h2
    omega

/-- Every character of `listHexLower` output is lowercase hex. -/
theorem listHexLower_lower (l : List Char) : ∀ c ∈ listHexLower l, lowerHexCh c = true := by
  intro c hc
  rw [listHexLower] at hc
  have hhex : hexCh c = true := List.of_mem_filter hc
  have hmem := List.mem_of_mem_filter hc
  obtain ⟨c0, -, hc0⟩ := List.mem_map.mp hmem
  rcases hexCh_cases c hhex with h | h | h
  · exact lowerHexCh_of c (Or.inl h)
  · exact lowerHexCh_of c (Or.inr h)
  · exfalso
    by_cases hup : 65 ≤ c0.toNat ∧ c0.toNat ≤ 90
    · have := pyLower_upper c0 hup.1 hup.2
      rw [hc0] at this
      omega
    · rw [pyLower_id c0 hup] at hc0
      subst hc0
      exact hup ⟨by omega, by omega⟩

/-- `listHexLower` distributes over append. -/
theorem listHexLower_append (a b : List Char) :
    listHexLower (a ++ b) = listHexLower a ++ listHexLower b := by
  simp [listHexLower]

/-- `listHexLower` fixes an all-lowercase-hex block. -/
theorem listHexLower_fix (g : List Char) (hg : ∀ c ∈ g, lowerHexCh c = true) :
    listHexLower g = g := by
  rw [listHexLower]
  have hmap : g.map pyLower = g := by
    have h1 : g.map pyLower = g.map id :=
      List.map_congr_left (fun c hc => pyLower_fix c (hg c hc))
    rw [h1, List.map_id]
  rw [hmap]
  apply List.filter_eq_self.mpr
  intro c hc
  exact lowerHexCh_hexCh c (hg c hc)

/-- Separators and the newline contribute nothing to `listHexLower`. -/
theorem listHexLower_sep_cons (c : Char) (t : List Char)
    (h : hexCh (pyLower c) = false) : listHexLower (c :: t) = listHexLower t := by
  rw [listHexLower, List.map_cons, List.filter_cons_of_neg (by simp [h])]
  rfl

/-- The hex digits of a full MAC interleaving are the lowercased group
characters, in order. -/
theorem listHexLower_macConcat : ∀ (gs : List (List Char)) (ss : List Char),
    gs.length = ss.length + 1 →
    (∀ g ∈ gs, ∀ c ∈ g, hexCh c = true) → (∀ c ∈ ss, c = ':' ∨ c = '-') →
    listHexLower (macConcat gs ss) = (gs.map (List.map pyLower)).join := by
  intro gs ss
  induction ss generalizing gs with
  | nil =>
    intro hlen hg _
    rcases gs with _ | ⟨g, gs'⟩
    · simp at hlen
    rcases gs' with _ | ⟨g2, gs''⟩
    · rw [macConcat, List.map_cons, List.map_nil, List.join]
      have hmap : listHexLower g = g.map pyLower := by
        rw [listHexLower]
        apply List.filter_eq_self.mpr
        intro c hc
        obtain ⟨c0, hc0m, hc0⟩ := List.mem_map.mp hc
        rw [← hc0]
        exact lowerHexCh_hexCh _ (pyLower_keeps c0 (hg g (by simp) c0 hc0m))
      rw [hmap]
      simp
    · simp at hlen
  | cons s ss' ih =>
    intro hlen hg hs
    rcases gs with _ | ⟨g, gs'⟩
    · simp at hlen
    rw [macConcat, listHexLower_append, listHexLower_sep_cons s _ ?hsep]
    case hsep =>
      rcases hs s (by simp) with h | h <;>
        (subst h; rfl)
    have hmapg : listHexLower g = g.map pyLower := by
      rw [listHexLower]
      apply List.filter_eq_self.mpr
      intro c hc
      obtain ⟨c0, hc0m, hc0⟩ := List.mem_map.mp hc
      rw [← hc0]
      exact lowerHexCh_hexCh _ (pyLower_keeps c0 (hg g (by simp) c0 hc0m))
    rw [hmapg, ih gs' (by simpa using hlen)
      (fun g' hg' c hc => hg g' (by simp [hg']) c hc)
      (fun c hc => hs c (by simp [hc]))]
    simp

/-- Total hex-digit count of 1–2 digit groups is between the group count
and twice the group count. -/
theorem groups_len_bounds : ∀ gs : List (List Char), (∀ g ∈ gs, HexGroup g) →
    gs.length ≤ (gs.map (fun g => g.length)).sum ∧
      (gs.map (fun g => g.length)).sum ≤ 2 * gs.length := by
  intro gs
  induction gs with
  | nil => intro _; simp
  | cons g gs' ih =>
    intro hg
    obtain ⟨hne, hle, -⟩ := hg g (by simp)
    have hpos := List.length_pos.mpr hne
    obtain ⟨ih1, ih2⟩ := ih (fun g' hg' => hg g' (by simp [hg']))
    simp only [List.map_cons, List.sum_cons, List.length_cons]
    omega

/-- Joining the pair-chunks recovers the original list. -/
theorem chunk2_join : ∀ l : List Char, (chunk2 l).join = l
  | [] => by simp [chunk2]
  | [a] => by simp [chunk2]
  | a :: b :: rest => by
    simp [chunk2, chunk2_join rest]

/-- Number of pair-chunks. -/
theorem chunk2_length : ∀ l : List Char, (chunk2 l).length = (l.length + 1) / 2
  | [] => by simp [chunk2]
  | [a] => by simp [chunk2]
  | a :: b :: rest => by
    rw [chunk2, List.length_cons, chunk2_length rest]
    simp only [List.length_cons]
    omega

/-- Every pair-chunk has 1 or 2 characters, all from the original list. -/
theorem chunk2_mem : ∀ (l g : List Char), g ∈ chunk2 l →
    (g.length = 1 ∨ g.length = 2) ∧ ∀ c ∈ g, c ∈ l
  | [], g, hg => by simp [chunk2] at hg
  | [a], g, hg => by
    rw [chunk2, List.mem_singleton] at hg
    subst hg
    refine ⟨Or.inl rfl, ?_⟩
    intro c hc
    simpa using hc
  | a :: b :: rest, g, hg => by
    rw [chunk2] at hg
    rcases List.mem_cons.mp hg with h | h
    · subst h
      refine ⟨Or.inr rfl, ?_⟩
      intro c hc
      rcases List.mem_cons.mp hc with h | h
      · simp [h]
      · rcases List.mem_cons.mp h with h | h
        · simp [h]
        · simp at h
    · obtain ⟨hlen, hmem⟩ := chunk2_mem rest g h
      refine ⟨hlen, ?_⟩
      intro c hc
      have := hmem c hc
      simp [this]

/-- All pair-chunks except possibly the last have exactly 2 characters. -/
theorem chunk2_dropLast_two : ∀ (l g : List Char), g ∈ (chunk2 l).dropLast →
    g.length = 2
  | [], g, hg => by simp [chunk2] at hg
  | [a], g, hg => by simp [chunk2] at hg
  | a :: b :: rest, g, hg => by
    rw [chunk2] at hg
    rcases hc : chunk2 rest with _ | ⟨y, ys⟩
    · rw [hc] at hg
      simp at hg
    · rw [hc, List.dropLast_cons₂] at hg
      rcases List.mem_cons.mp hg with h | h
      · subst h
        rfl
      · apply chunk2_dropLast_two rest g
        rw [hc]
        exact h

/-- On an even-length list every pair-chunk has exactly 2 characters. -/
theorem chunk2_even_two : ∀ l : List Char, l.length % 2 = 0 →
    ∀ g ∈ chunk2 l, g.length = 2
  | [], _, g, hg => by simp [chunk2] at hg
  | [a], h, _, _ => by simp at h
  | a :: b :: rest, h, g, hg => by
    rw [chunk2] at hg
    rcases List.mem_cons.mp hg with hx | hx
    · subst hx
      rfl
    · apply chunk2_even_two rest ?_ g hx
      simp only [List.length_cons] at h
      omega

/-- `splitChar` on a separator-free list is a single field. -/
theorem splitChar_free : ∀ (sep : Char) (g : List Char), (∀ c ∈ g, c ≠ sep) →
    splitChar sep g = [g]
  | _, [], _ => rfl
  | sep, c :: rest, h => by
    rw [splitChar, if_neg (h c (by simp)),
      splitChar_free sep rest (fun c' hc' => h c' (by simp [hc']))]

/-- `splitChar` pulls one separator-free field off the front. -/
theorem splitChar_sep_append : ∀ (sep : Char) (g rest : List Char),
    (∀ c ∈ g, c ≠ sep) →
    splitChar sep (g ++ sep :: rest) = g :: splitChar sep rest
  | sep, [], rest, _ => by
    rw [List.nil_append, splitChar, if_pos rfl]
  | sep, c :: g, rest, h => by
    rw [List.cons_append, splitChar, if_neg (h c (by simp)),
      splitChar_sep_append sep g rest (fun c' hc' => h c' (by simp [hc']))]

/-- Splitting a colon-join of colon-free fields recovers the fields. -/
theorem splitChar_joinColon : ∀ cs : List (List Char), cs ≠ [] →
    (∀ g ∈ cs, ∀ c ∈ g, c ≠ ':') → splitChar ':' (joinColon cs) = cs
  | [], h, _ => absurd rfl h
  | [g], _, hg => by
    rw [joinColon]
    exact splitChar_free ':' g (hg g (by simp))
  | g :: g2 :: cs, _, hg => by
    have hrec := splitChar_joinColon (g2 :: cs) (List.cons_ne_nil g2 cs)
      (fun g' h' c hc => hg g' (by simp [h']) c hc)
    rw [joinColon, splitChar_sep_append ':' g _ (hg g (by simp)), hrec]
    exact List.cons_ne_nil g2 cs

/-- An accepted MAC contains between 6 and 12 hex digits. -/
theorem valid_mac_digit_bounds (m : String) (h : is_valid_mac m = true) :
    6 ≤ (hexFilterLower m).length ∧ (hexFilterLower m).length ≤ 12 := by
  obtain ⟨gs, ss, tail, hgs, hss, hgrp, hsep, htail, hl⟩ := (macGroups_iff 5 m.data).mp h
  rw [hexFilterLower_eq, hl, listHexLower_append]
  have htl : listHexLower tail = [] := by
    rcases htail with h | h <;> (subst h; rfl)
  rw [htl, List.append_nil,
    listHexLower_macConcat gs ss (by omega) (fun g hg c hc => (hgrp g hg).2.2 c hc) hsep,
    List.length_join]
  have hml : ((gs.map (List.map pyLower)).map (fun l => l.length)) =
      gs.map (fun g => g.length) := by
    rw [List.map_map]
    apply List.map_congr_left
    intro g _
    simp
  rw [hml]
  obtain ⟨hb1, hb2⟩ := groups_len_bounds gs hgrp
  rw [hgs] at hb1 hb2
  omega

/-- The normalization of an accepted MAC has the loose shape: 3–6
colon-joined lowercase-hex groups, all pairs except possibly the last. -/
theorem normalize_mac_shape (m : String) (h : is_valid_mac m = true) :
    macLoose (normalize_mac m) = true := by
  obtain ⟨h6, h12⟩ := valid_mac_digit_bounds m h
  have hDlow : ∀ c ∈ hexFilterLower m, lowerHexCh c = true := by
    rw [hexFilterLower_eq]
    exact listHexLower_lower m.data
  have hcnt : (chunk2 (hexFilterLower m)).length = ((hexFilterLower m).length + 1) / 2 :=
    chunk2_length _
  have htake : (chunk2 (hexFilterLower m)).take 6 = chunk2 (hexFilterLower m) :=
    List.take_of_length_le (by omega)
  have hnm : normalize_mac m = ⟨joinColon (chunk2 (hexFilterLower m))⟩ := by
    rw [normalize_mac, htake]
  have hne : chunk2 (hexFilterLower m) ≠ [] := by
    intro he
    rw [he] at hcnt
    simp at hcnt
    omega
  have hsplit : splitChar ':' (joinColon (chunk2 (hexFilterLower m))) =
      chunk2 (hexFilterLower m) := by
    apply splitChar_joinColon _ hne
    intro g hg c hc
    have hlow := hDlow c ((chunk2_mem _ g hg).2 c hc)
    intro he
    subst he
    exact absurd hlow (by decide)
  rw [hnm, macLoose]
  show (decide (3 ≤ (splitChar ':' (joinColon (chunk2 (hexFilterLower m)))).length) &&
    _ && _ && _) = true
  rw [hsplit]
  have hA : decide (3 ≤ (chunk2 (hexFilterLower m)).length) = true :=
    decide_eq_true (by rw [hcnt]; omega)
  have hB : decide ((chunk2 (hexFilterLower m)).length ≤ 6) = true :=
    decide_eq_true (by rw [hcnt]; omega)
  have hC : ((chunk2 (hexFilterLower m)).dropLast.all
      fun g => g.length = 2 && g.all lowerHexCh) = true := by
    apply List.all_eq_true.mpr
    intro g hg
    have hlen := chunk2_dropLast_two _ g hg
    have hgin : g ∈ chunk2 (hexFilterLower m) := List.dropLast_subset _ hg
    rw [Bool.and_eq_true]
    refine ⟨by simp [hlen], ?_⟩
    apply List.all_eq_true.mpr
    intro c hc
    exact hDlow c ((chunk2_mem _ g hgin).2 c hc)
  have hLast : (match (chunk2 (hexFilterLower m)).getLast? with
      | some g => (g.length = 1 || g.length = 2) && g.all lowerHexCh
      | none => false) = true := by
    rw [List.getLast?_eq_getLast_of_ne_nil hne]
    have hgin := List.getLast_mem hne
    obtain ⟨hlen12, hmem⟩ := chunk2_mem _ _ hgin
    dsimp only
    rw [Bool.and_eq_true]
    constructor
    · rcases hlen12 with h | h <;> simp [h]
    · apply List.all_eq_true.mpr
      intro c hc
      exact hDlow c (hmem c hc)
  rw [hA, hB, hC, hLast]
  rfl

/-- A successful `scan_network` result is a normalization-pass output. -/
theorem scan_ok_normalized (e : Env) (l : List Device) (h : scan_network e = .ok l) :
    ∃ raw, l = normalizePass raw := by
  have hc := scanTrace_consistent e
  rw [h] at hc
  rcases hs : scanTrace e with u | tr
  · rw [hs] at hc
    cases hc
  · rw [hs] at hc
    refine ⟨lastResult tr, ?_⟩
    simpa [Except.map] using hc

/-- C6 amended: every device in a successful `scan()` result has a MAC of
the loose normalized shape — three to six colon-joined lowercase-hex
groups, each of two digits except possibly a shorter final group.  (The
strict canonical six-pair shape of the original claim fails, see the
counterexample.) -/
theorem c6_mac_shape_amended (e : Env) (l : List Device) (h : scan_network e = .ok l) :
    ∀ d ∈ l, macLoose d.mac = true := by
  obtain ⟨raw, hl⟩ := scan_ok_normalized e l h
  intro d hd
  rw [hl] at hd
  obtain ⟨r, -, hval, hdr⟩ := mem_normalizePass raw d hd
  rw [hdr]
  show macLoose (normalize_mac r.mac) = true
  rw [validR, Bool.and_eq_true] at hval
  exact normalize_mac_shape r.mac hval.2

/-- C6 counterexample: the raw MAC `a:b:c:d:e:f` passes validation, and the
scan emits the device with MAC `ab:cd:ef` — not the canonical six-pair
shape. -/
theorem c6_mac_shape_cex :
    scan_network envCex6 = .ok [⟨"1.2.3.4", "ab:cd:ef", "pi", "t"⟩] ∧
      canonicalMac "ab:cd:ef" = false := by decide

/-- C6 witness: concrete scan whose output MAC satisfies the amended
shape. -/
theorem c6_mac_shape_amended_witness :
    scan_network envW6 = .ok [⟨"10.0.0.7", "aa:bb:cc:dd:ee:ff", "tv", "t"⟩] ∧
      macLoose "aa:bb:cc:dd:ee:ff" = true :=
  ⟨by decide,
    c6_mac_shape_amended envW6 [⟨"10.0.0.7", "aa:bb:cc:dd:ee:ff", "tv", "t"⟩]
      (by decide) ⟨"10.0.0.7", "aa:bb:cc:dd:ee:ff", "tv", "t"⟩ (by decide)⟩

/-! ## Idempotence of the normalization pass on 12-digit MACs (C7) -/

/-- When every separator is `':'`, the interleaving is the colon-join. -/
theorem joinColon_macConcat : ∀ cs : List (List Char), cs ≠ [] →
    macConcat cs (List.replicate (cs.length - 1) ':') = joinColon cs
  | [], h => absurd rfl h
  | [g], _ => rfl
  | g :: g2 :: cs, _ => by
    have hlen : (g :: g2 :: cs).length - 1 = cs.length + 1 := by simp
    rw [hlen, List.replicate_succ, macConcat]
    have hlen2 : List.replicate cs.length ':' =
        List.replicate ((g2 :: cs).length - 1) ':' := by simp
    rw [hlen2, joinColon_macConcat (g2 :: cs) (List.cons_ne_nil g2 cs)]
    rfl

/-- `listHexLower` of a colon-join of lowercase-hex groups is their
concatenation. -/
theorem listHexLower_joinColon : ∀ cs : List (List Char),
    (∀ g ∈ cs, ∀ c ∈ g, lowerHexCh c = true) →
    listHexLower (joinColon cs) = cs.join
  | [], _ => rfl
  | [g], hg => by
    rw [joinColon, listHexLower_fix g (hg g (by simp))]
    simp
  | g :: g2 :: cs, hg => by
    rw [joinColon, listHexLower_append,
      listHexLower_fix g (hg g (by simp)),
      listHexLower_sep_cons ':' _ (by decide),
      listHexLower_joinColon (g2 :: cs) (fun g' h' c hc => hg g' (by simp [h']) c hc)]
    · simp
    · exact List.cons_ne_nil g2 cs

/-- On a MAC with exactly 12 hex digits, `normalize_mac` produces a string
accepted by `is_valid_mac`. -/
theorem norm12_valid (m : String) (h12 : (hexFilterLower m).length = 12) :
    is_valid_mac (normalize_mac m) = true := by
  have hlow : ∀ c ∈ hexFilterLower m, lowerHexCh c = true := by
    rw [hexFilterLower_eq]
    exact listHexLower_lower _
  have hcnt : (chunk2 (hexFilterLower m)).length = 6 := by
    rw [chunk2_length, h12]
  have htake : (chunk2 (hexFilterLower m)).take 6 = chunk2 (hexFilterLower m) :=
    List.take_of_length_le (by omega)
  have h2 : ∀ g ∈ chunk2 (hexFilterLower m), g.length = 2 :=
    chunk2_even_two _ (by omega)
  rw [is_valid_mac]
  apply (macGroups_iff 5 _).mpr
  refine ⟨chunk2 (hexFilterLower m), List.replicate 5 ':', [], hcnt, by simp,
    ?_, ?_, Or.inl rfl, ?_⟩
  · intro g hg
    have hmem := (chunk2_mem _ g hg).2
    have hg2 := h2 g hg
    refine ⟨?_, by omega, ?_⟩
    · intro he
      rw [he] at hg2
      simp at hg2
    · intro c hc
      exact lowerHexCh_hexCh c (hlow c (hmem c hc))
  · intro c hc
    exact Or.inl (List.eq_of_mem_replicate hc)
  · show joinColon ((chunk2 (hexFilterLower m)).take 6) = _
    rw [htake, List.append_nil]
    have h5 : (5 : Nat) = (chunk2 (hexFilterLower m)).length - 1 := by omega
    rw [h5, joinColon_macConcat _ ?hne]
    case hne =>
      intro he
      rw [he] at hcnt
      simp at hcnt

/-- On a MAC with exactly 12 hex digits, normalization does not change
the hex-digit content. -/
theorem norm12_digits (m : String) (h12 : (hexFilterLower m).length = 12) :
    hexFilterLower (normalize_mac m) = hexFilterLower m := by
  have hlow : ∀ c ∈ hexFilterLower m, lowerHexCh c = true := by
    rw [hexFilterLower_eq]
    exact listHexLower_lower _
  have hcnt : (chunk2 (hexFilterLower m)).length = 6 := by
    rw [chunk2_length, h12]
  have htake : (chunk2 (hexFilterLower m)).take 6 = chunk2 (hexFilterLower m) :=
    List.take_of_length_le (by omega)
  have hstep : hexFilterLower (normalize_mac m) =
      listHexLower (joinColon ((chunk2 (hexFilterLower m)).take 6)) := rfl
  rw [hstep, htake,
    listHexLower_joinColon _ (fun g hg c hc => hlow c ((chunk2_mem _ g hg).2 c hc)),
    chunk2_join]

/-- On a MAC with exactly 12 hex digits, `normalize_mac` is idempotent. -/
theorem norm12_idem (m : String) (h12 : (hexFilterLower m).length = 12) :
    normalize_mac (normalize_mac m) = normalize_mac m := by
  conv_lhs => rw [normalize_mac, norm12_digits m h12]
  rfl

/-- The dedup loop is the identity on lists of valid records with
normalization-fixed, pairwise-distinct MACs none of which is already
seen. -/
theorem normAux_id : ∀ (l : List Device) (seen : List String),
    (∀ d ∈ l, validR d = true) → (∀ d ∈ l, normalize_mac d.mac = d.mac) →
    ((l.map fun d => d.mac).Nodup) → (∀ d ∈ l, seen.contains d.mac = false) →
    normAux seen l = l
  | [], _, _, _, _, _ => rfl
  | d :: rest, seen, hval, hnorm, hnd, hseen => by
    have hvd := hval d (by simp)
    have hnd' : (∀ x ∈ rest, ¬x.mac = d.mac) ∧ (rest.map fun d => d.mac).Nodup := by
      simpa using hnd
    have hrec : normAux (d.mac :: seen) rest = rest := by
      apply normAux_id rest (d.mac :: seen)
      · exact fun d' hd' => hval d' (by simp [hd'])
      · exact fun d' hd' => hnorm d' (by simp [hd'])
      · exact hnd'.2
      · intro d' hd'
        have hne : ¬(d'.mac = d.mac) := hnd'.1 d' hd'
        have hs := hseen d' (by simp [hd'])
        simp [List.contains_cons, hne, hs]
        simpa using hs
    show normAux seen (d :: rest) = d :: rest
    rw [normAux, if_neg (by simp [hvd])]
    show (if seen.contains (normalize_mac d.mac) = true then normAux seen rest
      else { d with mac := normalize_mac d.mac } ::
        normAux (normalize_mac d.mac :: seen) rest) = d :: rest
    rw [hnorm d (by simp)]
    rw [if_neg (by simpa using hseen d (by simp)), hrec]

/-- C7 counterexample: the normalization pass is not idempotent.  A valid
short-group MAC normalizes to `ab:cd:ef`, which the second pass's validity
gate rejects, so the record is dropped on re-normalization. -/
theorem c7_normalize_idem_cex :
    normalizePass [(⟨"1.2.3.4", "a:b:c:d:e:f", "pi", "t"⟩ : Device)] =
        [⟨"1.2.3.4", "ab:cd:ef", "pi", "t"⟩] ∧
      normalizePass (normalizePass [(⟨"1.2.3.4", "a:b:c:d:e:f", "pi", "t"⟩ : Device)]) =
        [] := by decide

/-- C7 amended: the normalization pass is idempotent on raw lists whose
valid records all carry MACs with exactly 12 hex digits (in particular on
all canonical-form raw data); without that restriction idempotence fails,
see the counterexample. -/
theorem c7_normalize_idem_amended (xs : List Device)
    (h : ∀ d ∈ xs, validR d = true → (hexFilterLower d.mac).length = 12) :
    normalizePass (normalizePass xs) = normalizePass xs := by
  have hmem : ∀ d ∈ normalizePass xs,
      validR d = true ∧ normalize_mac d.mac = d.mac := by
    intro d hd
    obtain ⟨r, hrx, hval, hdr⟩ := mem_normalizePass xs d hd
    have h12 := h r hrx hval
    have hvip : is_valid_ip r.ip = true := by
      rw [validR, Bool.and_eq_true] at hval
      exact hval.1
    subst hdr
    constructor
    · show (is_valid_ip r.ip && is_valid_mac (normalize_mac r.mac)) = true
      rw [Bool.and_eq_true]
      exact ⟨hvip, norm12_valid r.mac h12⟩
    · show normalize_mac (normalize_mac r.mac) = normalize_mac r.mac
      exact norm12_idem r.mac h12
  conv_lhs => rw [normalizePass]
  exact normAux_id (normalizePass xs) []
    (fun d hd => (hmem d hd).1)
    (fun d hd => (hmem d hd).2)
    (normalizePass_nodup xs)
    (fun d _ => rfl)

/-- C7 witness: a canonical-digit raw record for which double
normalization is a no-op. -/
theorem c7_normalize_idem_amended_witness :
    normalizePass (normalizePass [(⟨"10.0.0.7", "AA:BB:CC:DD:EE:FF", "tv", "t"⟩ : Device)]) =
      normalizePass [(⟨"10.0.0.7", "AA:BB:CC:DD:EE:FF", "tv", "t"⟩ : Device)] :=
  c7_normalize_idem_amended [⟨"10.0.0.7", "AA:BB:CC:DD:EE:FF", "tv", "t"⟩] (by decide)

/-! ## The arp-scan parser against its specification (C8) -/

/-- Tokens produced by the whitespace splitter are nonempty and contain no
whitespace. -/
theorem wsSplitGo_tokens : ∀ (cur l : List Char), (∀ c ∈ cur, pyWs c = false) →
    ∀ t ∈ wsSplitGo cur l, t ≠ [] ∧ ∀ c ∈ t, pyWs c = false
  | cur, [], hcur => by
    rw [wsSplitGo]
    split_ifs with he
    · intro t ht
      simp at ht
    · intro t ht
      rw [List.mem_singleton] at ht
      subst ht
      refine ⟨?_, ?_⟩
      · intro habs
        rw [List.reverse_eq_nil_iff] at habs
        rw [habs] at he
        simp at he
      · intro c hc
        exact hcur c (List.mem_reverse.mp hc)
  | cur, c :: cs, hcur => by
    rw [wsSplitGo]
    split_ifs with hw he
    · exact wsSplitGo_tokens [] cs (by simp)
    · intro t ht
      rcases List.mem_cons.mp ht with h | h
      · subst h
        refine ⟨?_, ?_⟩
        · intro habs
          rw [List.reverse_eq_nil_iff] at habs
          rw [habs] at he
          simp at he
        · intro c' hc'
          exact hcur c' (List.mem_reverse.mp hc')
      · exact wsSplitGo_tokens [] cs (by simp) t h
    · apply wsSplitGo_tokens (c :: cur) cs
      intro c' hc'
      rcases List.mem_cons.mp hc' with h | h
      · subst h
        exact Bool.not_eq_true _ ▸ (by simpa using hw)
      · exact hcur c' h

/-- `dropWhile` is the identity when the head fails the predicate. -/
theorem dropWhile_id_of_head (l : List Char)
    (h : ∀ c r, l = c :: r → pyWs c = false) : l.dropWhile pyWs = l := by
  cases l with
  | nil => rfl
  | cons c r => exact List.dropWhile_cons_of_neg (by simp [h c r rfl])

/-- A space-join of a nonempty token list headed by a nonempty token is
nonempty. -/
theorem joinSep_ne_nil : ∀ (t : List Char) (ts : List (List Char)), t ≠ [] →
    joinSep ' ' (t :: ts) ≠ []
  | t, [], ht => by rw [joinSep]; exact ht
  | t, t2 :: ts, _ => by
    rw [joinSep]
    · rcases t with _ | ⟨c, t'⟩ <;> simp
    · exact List.cons_ne_nil t2 ts

/-- The first character of a space-join of whitespace-free nonempty tokens
is not whitespace. -/
theorem joinSep_head_nonws : ∀ (t : List Char) (ts : List (List Char)),
    t ≠ [] → (∀ c ∈ t, pyWs c = false) →
    ∀ c r, joinSep ' ' (t :: ts) = c :: r → pyWs c = false := by
  intro t ts ht hws c r heq
  rcases t with _ | ⟨c0, t0⟩
  · exact absurd rfl ht
  rcases ts with _ | ⟨t2, ts'⟩
  · rw [joinSep] at heq
    rw [List.cons.injEq] at heq
    rw [← heq.1]
    exact hws c0 (by simp)
  · rw [joinSep, List.cons_append, List.cons.injEq] at heq
    · rw [← heq.1]
      exact hws c0 (by simp)
    · exact List.cons_ne_nil t2 ts'

/-- The last character of a space-join of whitespace-free nonempty tokens
is not whitespace. -/
theorem joinSep_rev_head : ∀ toks : List (List Char),
    (∀ t ∈ toks, t ≠ [] ∧ ∀ c ∈ t, pyWs c = false) → toks ≠ [] →
    ∀ c r, (joinSep ' ' toks).reverse = c :: r → pyWs c = false
  | [], _, hne => absurd rfl hne
  | [t], h, _ => by
    intro c r heq
    rw [joinSep] at heq
    have hc : c ∈ t.reverse := by rw [heq]; simp
    exact (h t (by simp)).2 c (List.mem_reverse.mp hc)
  | t :: t2 :: ts, h, _ => by
    intro c r heq
    have hJ : joinSep ' ' (t2 :: ts) ≠ [] :=
      joinSep_ne_nil t2 ts (h t2 (by simp)).1
    rcases hJr : (joinSep ' ' (t2 :: ts)).reverse with _ | ⟨c0, r0⟩
    · rw [List.reverse_eq_nil_iff] at hJr
      exact absurd hJr hJ
    · have hshape : (joinSep ' ' (t :: t2 :: ts)).reverse =
          c0 :: (r0 ++ ' ' :: t.reverse) := by
        rw [joinSep]
        · rw [List.reverse_append, List.reverse_cons, hJr]
          simp
        · exact List.cons_ne_nil t2 ts
      rw [hshape, List.cons.injEq] at heq
      rw [← heq.1]
      exact joinSep_rev_head (t2 :: ts) (fun t' ht' => h t' (by simp [ht']))
        (List.cons_ne_nil t2 ts) c0 r0 hJr

/-- `pyStrip` fixes a space-join of whitespace-free nonempty tokens. -/
theorem pyStrip_joinSep (toks : List (List Char))
    (h : ∀ t ∈ toks, t ≠ [] ∧ ∀ c ∈ t, pyWs c = false) (hne : toks ≠ []) :
    pyStrip (joinSep ' ' toks) = joinSep ' ' toks := by
  rcases toks with _ | ⟨t, ts⟩
  · exact absurd rfl hne
  rw [pyStrip,
    dropWhile_id_of_head _ (joinSep_head_nonws t ts (h t (by simp)).1 (h t (by simp)).2),
    dropWhile_id_of_head _ (joinSep_rev_head (t :: ts) h (List.cons_ne_nil t ts)),
    List.reverse_reverse]

/-- The arp-scan parse loop computes, up to the appended clock stamps,
exactly the claim-side line-by-line parse. -/
theorem arpScanLoop_eq (e : Env) : ∀ (body : List (List Char)) (k : Nat),
    (arpScanLoop e k body).map devText = body.filterMap claimLineParse
  | [], _ => by
    rw [arpScanLoop]
    rfl
  | line :: rest, k => by
    rw [arpScanLoop, List.filterMap_cons, claimLineParse]
    by_cases hblank : (pyStrip line).isEmpty = true
    · rw [if_pos hblank, if_pos hblank]
      dsimp only
      exact arpScanLoop_eq e rest k
    · rw [if_neg hblank, if_neg hblank]
      rcases hw : wsSplit (pyStrip line) with _ | ⟨ipTok, _ | ⟨macTok, hostToks⟩⟩
      · dsimp only
        exact arpScanLoop_eq e rest k
      · dsimp only
        exact arpScanLoop_eq e rest k
      · dsimp only
        by_cases hv : (is_valid_ip ⟨ipTok⟩ && is_valid_mac ⟨macTok⟩) = true
        · rw [if_pos hv, if_pos hv]
          dsimp only
          rw [List.map_cons, arpScanLoop_eq e rest (k + 1)]
          congr 1
          have htoks : ∀ t' ∈ hostToks, t' ≠ [] ∧ ∀ c ∈ t', pyWs c = false := by
            intro t' ht'
            apply wsSplitGo_tokens [] (pyStrip line) (by simp)
            show t' ∈ wsSplit (pyStrip line)
            rw [hw]
            simp [ht']
          rcases hostToks with _ | ⟨t, ts⟩
          · rfl
          · have hne := joinSep_ne_nil t ts (htoks t (by simp)).1
            have hf : (joinSep ' ' (t :: ts)).isEmpty = false := by
              rcases hj : joinSep ' ' (t :: ts) with _ | _
              · exact absurd hj hne
              · rfl
            show devText ⟨⟨ipTok⟩, ⟨macTok⟩,
              if (joinSep ' ' (t :: ts)).isEmpty then "Unknown"
              else ⟨pyStrip (joinSep ' ' (t :: ts))⟩, e.clock k⟩ = _
            rw [devText, hf]
            dsimp only
            rw [pyStrip_joinSep (t :: ts) htoks (List.cons_ne_nil t ts)]
            rfl
        · rw [if_neg hv, if_neg hv]
          dsimp only
          exact arpScanLoop_eq e rest k

/-- C8: on exit status 0 or 1 the arp-scan strategy parses the output, up
to clock stamps, exactly as specified: skip the first 2 lines, drop the
last 3 only when more than 5 lines are present, parse each remaining
non-blank line as IP, MAC, joined-hostname (default `"Unknown"`),
discarding lines failing validation; any other exit status yields `[]`. -/
theorem c8_arp_scan_parse (e : Env) (iface : String) (code : Int) (out : String)
    (hroot : is_root e = true) (hif : iface.isEmpty = false)
    (hrun : e.run ["arp-scan", "--interface", iface, "--localnet"] = .ok code out) :
    (scan_with_arp_scan e (some iface)).map devText =
      if code = 0 ∨ code = 1 then claimArpParse out else [] := by
  have hopt : optTruthy (some iface) = true := by
    rw [optTruthy, hif]
    rfl
  have hifc : (if true = true then some iface else get_default_interface e) = some iface :=
    if_pos rfl
  rw [scan_with_arp_scan, hroot, hopt, Bool.not_true, if_neg Bool.false_ne_true, hifc]
  dsimp only
  rw [hopt, Bool.not_true, if_neg Bool.false_ne_true]
  dsimp only [Option.getD]
  rw [hrun]
  dsimp only
  by_cases hc : code = 0 ∨ code = 1
  · rw [if_neg (by rcases hc with h | h <;> simp [h]), if_pos hc,
      arpScanLoop_eq e _ 0, claimArpParse]
    by_cases h5 : (splitChar '\n' out.data).length > 5
    · rw [if_pos h5, if_pos h5, List.drop_take]
      have h35 : (splitChar '\n' out.data).length - 3 - 2 =
          (splitChar '\n' out.data).length - 5 := by omega
      rw [h35]
    · rw [if_neg h5, if_neg h5, List.take_length]
  · rw [if_pos ⟨fun h => hc (Or.inl h), fun h => hc (Or.inr h)⟩, if_neg hc]
    rfl

/-- C8 witness: a concrete 8-line arp-scan output, exit status 0, parsed
into the two specified records. -/
theorem c8_arp_scan_parse_witness :
    ((scan_with_arp_scan envW8 (some "eth0")).map devText =
        if (0 : Int) = 0 ∨ (0 : Int) = 1 then claimArpParse outW8 else []) ∧
      claimArpParse outW8 =
        [("192.168.1.10", "aa:bb:cc:dd:ee:ff", "my device"),
         ("192.168.1.11", "11:22:33:44:55:66", "Unknown")] :=
  ⟨c8_arp_scan_parse envW8 "eth0" 0 outW8 (by decide) (by decide) rfl, by decide⟩
